import Mathlib

/-!
Verification development for the exam seating arrangement program
(src/seating_arrangement.py of t2scientist/DAA-GROUP-FINAL-PROJECT-).

The embedding is shallow: every relevant Python function is translated into
an executable Lean definition.

Modelling conventions, fixed once and used throughout:

* Python strings are Lean `String`s; Python's code-point lexicographic
  comparison is modelled by `clLt`/`strLt`/`strLe` on the underlying
  character lists (Mathlib's `String` order instances do not reduce in the
  kernel, so the comparison is spelled out; it agrees with Python's on every
  string).  `pyStrip`, `pyUpper`, `pySplitSemi`, `pyStartsWith` model
  `str.strip`, `str.upper` (ASCII range, which is all the inputs use),
  `str.split(";")` and `str.startswith`.
* Python dicts are insertion-ordered association lists: `alookup` reads,
  `aset` overwrites in place, `aput` models `d[k] = v` (overwrite or append),
  mirroring dict iteration order.
* Python's stable `sorted` is the stable insertion sort `isortLe`
  (`insertLe` places an element before the first entry it compares
  less-or-equal to, so equal elements keep their original order, exactly as
  Python's sort does).
* Python ints are `Int` where a value can be negative (capacities, buffer)
  and `Nat` where the source guarantees non-negativity: the per-room
  remaining-capacity counters start from `per_subject_capacity`, which is
  non-negative for every room the capacity planner produces
  (`per_subject_capacity_nonneg` below), so the counters are `Nat`
  (`capN` takes the `toNat` of the planner's value).
* Log/print error reporting is modelled by the explicit `Signal` values a
  run returns, in emission order.
-/

namespace Seating

/-! ## Python-style string primitives -/

/-- Strict lexicographic comparison of character lists by code point:
exactly how Python compares strings. -/
def clLt : List Char → List Char → Bool
  | [], [] => false
  | [], _ :: _ => true
  | _ :: _, [] => false
  | a :: as, b :: bs =>
    if a.toNat < b.toNat then true
    else if b.toNat < a.toNat then false
    else clLt as bs

/-- Python's `a < b` on strings. -/
def strLt (a b : String) : Bool := clLt a.data b.data

/-- Python's `a <= b` on strings (total order, so `a <= b` iff not `b < a`). -/
def strLe (a b : String) : Bool := !(strLt b a)

/-- The whitespace characters Python's `str.strip()` removes (ASCII range). -/
def pySpace (c : Char) : Bool :=
  c.toNat = 32 || c.toNat = 9 || c.toNat = 10 || c.toNat = 13 || c.toNat = 11 || c.toNat = 12

/-- Python's `str.strip()`: drop whitespace from both ends. -/
def pyStrip (s : String) : String :=
  String.mk (((s.data.dropWhile pySpace).reverse.dropWhile pySpace).reverse)

/-- Uppercase one character (ASCII range, all the timetable markers use). -/
def asciiUpper (c : Char) : Char :=
  if 97 ≤ c.toNat ∧ c.toNat ≤ 122 then Char.ofNat (c.toNat - 32) else c

/-- Python's `str.upper()` on the ASCII range. -/
def pyUpper (s : String) : String := String.mk (s.data.map asciiUpper)

/-- Whether the first list is a prefix of the second, decidably. -/
def isPrefixOfB : List Char → List Char → Bool
  | [], _ => true
  | _ :: _, [] => false
  | a :: as, b :: bs => a = b && isPrefixOfB as bs

/-- Python's `s.startswith(p)`. -/
def pyStartsWith (s p : String) : Bool := isPrefixOfB p.data s.data

/-- Helper for `pySplitSemi`: split at every semicolon, keeping empty pieces,
with the accumulator holding the current piece reversed. -/
def splitSemiAux : List Char → List Char → List (List Char)
  | [], acc => [acc.reverse]
  | c :: rest, acc =>
    if c = ';' then acc.reverse :: splitSemiAux rest [] else splitSemiAux rest (c :: acc)

/-- Python's `s.split(";")`. -/
def pySplitSemi (s : String) : List String := (splitSemiAux s.data []).map String.mk

/-- Python's `";".join(xs)` (used by the report aggregator). -/
def joinSemi (xs : List String) : String :=
  String.mk (((xs.map String.data).intersperse [';']).flatten)

/-! ## Association lists: Python dicts with insertion order -/

section Assoc

variable {α β : Type} [DecidableEq α]

/-- Dict read: the value stored at the first entry with key `k`. -/
def alookup (k : α) : List (α × β) → Option β
  | [] => none
  | p :: rest => if p.1 = k then some p.2 else alookup k rest

/-- Dict write to an existing key: overwrite in place, keeping the position. -/
def aset (k : α) (v : β) : List (α × β) → List (α × β)
  | [] => []
  | p :: rest => if p.1 = k then (k, v) :: rest else p :: aset k v rest

/-- Python's `d[k] = v`: overwrite when present, append when new. -/
def aput (k : α) (v : β) (l : List (α × β)) : List (α × β) :=
  if (alookup k l).isSome then aset k v l else l ++ [(k, v)]

end Assoc

/-! ## First-seen deduplication and the stable sort -/

/-- Keep the first occurrence of every element, in order of first occurrence:
what iterating a Python sequence and appending unseen values produces. -/
def dedupFS {α : Type} [DecidableEq α] : List α → List α
  | [] => []
  | x :: xs => x :: (dedupFS xs).filter (fun y => decide (y ≠ x))

/-- Insert `x` before the first element `y` with `le x y`; equal elements keep
their original relative order, as in Python's stable sort. -/
def insertLe {α : Type} (le : α → α → Bool) (x : α) : List α → List α
  | [] => [x]
  | y :: ys => if le x y then x :: y :: ys else y :: insertLe le x ys

/-- Stable insertion sort: the model of Python's `sorted`. -/
def isortLe {α : Type} (le : α → α → Bool) : List α → List α
  | [] => []
  | x :: xs => insertLe le x (isortLe le xs)

/-! ## Data model -/

/-- A row of the normalized room table (`class_df` in the source):
building code, room identifier, raw exam capacity (via `safe_int`). -/
structure ClassRoom where
  building : String
  room : String
  capacity : Int
deriving DecidableEq

/-- One entry of `rooms_info` as `compute_effective_capacities` builds it. -/
structure RoomInfo where
  building : String
  room : String
  capacity : Int
  effective_capacity : Int
  per_subject_capacity : Int
deriving DecidableEq

/-- One registration row: (date, slot, coursecode, rollno). -/
structure Reg where
  date : String
  slot : String
  course : String
  roll : String
deriving DecidableEq

/-- One allocation record as `allocate_for_slot` appends it. -/
structure AllocRec where
  date : String
  slot : String
  building : String
  room : String
  course : String
  roll : String
  name : String
deriving DecidableEq

/-- The error/warning stream the program prints and logs, as data:
`capacityError` is the slot-level abort message of `allocate_for_slot`,
`unseated` its per-course leftover warning, `clash` one line of
`check_clashes_for_slot`. -/
inductive Signal where
  | capacityError (date slot : String) (students seats : Nat)
  | unseated (date slot course : String) (count : Nat)
  | clash (roll c1 c2 : String)
deriving DecidableEq

/-- A (building, room) pair: the key of the per-room capacity dict. -/
abbrev Key := String × String

/-- The dict key of a room row. -/
def roomKey (r : RoomInfo) : Key := (r.building, r.room)

/-- The per-subject capacity as the allocation engine reads it
(`int(rinfo["per_subject_capacity"])`); the planner's value is provably
non-negative, so the counter is a `Nat`. -/
def capN (r : RoomInfo) : Nat := r.per_subject_capacity.toNat

/-! ## Capacity planner (`compute_effective_capacities`, source lines 381-409) -/

/-- One loop body of `compute_effective_capacities`: effective capacity is
the raw capacity minus the buffer, floored at 0; per-subject capacity halves
it (integer division) in sparse mode. Lean's `Int` division rounds toward
negative infinity for a positive divisor, exactly like Python's `//`. -/
def compute_room (buffer : Int) (mode : String) (row : ClassRoom) : RoomInfo :=
  let effective : Int := max (row.capacity - buffer) 0
  let per_subject : Int := if mode = "sparse" then effective / 2 else effective
  ⟨row.building, row.room, row.capacity, effective, per_subject⟩

/-- The planner: one `RoomInfo` per room row, in order. -/
def compute_effective_capacities (class_df : List ClassRoom) (buffer : Int)
    (mode : String) : List RoomInfo :=
  class_df.map (compute_room buffer mode)

/-! ## Registration builder (inside `load_inputs_from_workbook`, lines 286-323) -/

/-- A timetable row: the date cell and the two session cells; `none` models a
NaN cell (`pd.isna`), `some` a string cell. -/
structure TTRow where
  date : String
  morning : Option String
  evening : Option String
deriving DecidableEq

/-- A row of the course-roll mapping sheet (columns already normalized). -/
structure CRRow where
  rollno : String
  course_code : String
deriving DecidableEq

/-- The date string of a row (the `str(date_val).strip()` branch; Timestamp
cells arrive here already rendered to text). -/
def dateOf (row : TTRow) : String := pyStrip row.date

/-- Course codes of one cell: split on `;`, strip each token, keep the
non-empty ones (the `if c.strip()` guard). -/
def cellCourses (cell : String) : List String :=
  ((pySplitSemi cell).map pyStrip).filter fun c => decide (c ≠ "")

/-- The registrations one timetable row contributes, looping the two session
columns in order, skipping NaN, empty and `NO EXAM` cells, and emitting one
row per (course token, enrolled roll). -/
def rowRegs (cr : List CRRow) (row : TTRow) : List Reg :=
  [(("morning" : String), row.morning), (("evening" : String), row.evening)].flatMap fun p =>
    match p.2 with
    | none => []
    | some cell =>
      let cell_str := pyStrip cell
      if cell_str = "" then []
      else if pyStartsWith (pyUpper cell_str) "NO EXAM" then []
      else
        (cellCourses cell_str).flatMap fun course =>
          ((cr.filter fun q => q.course_code = course).map fun q => pyStrip q.rollno).map
            fun r => ⟨dateOf row, p.1, course, r⟩

/-- The registration builder: all rows of `registrations_rows`, or the
`ValueError` the source raises when no registration was built. -/
def build_registrations (tt : List TTRow) (cr : List CRRow) : Except String (List Reg) :=
  let rows := tt.flatMap (rowRegs cr)
  if rows = [] then
    Except.error "No registrations could be built from timetable and course-roll mapping."
  else Except.ok rows

/-- Modelled from the spec, section 4.1: the two session columns of a row. -/
def specSessions (row : TTRow) : List (String × Option String) :=
  [(("morning" : String), row.morning), (("evening" : String), row.evening)]

/-- Modelled from the spec, section 4.1: a session cell is processed when it
is present, non-empty after trimming, and not a case-insensitive NO EXAM
marker. -/
def specProcessable : Option String → Bool
  | none => false
  | some cell =>
    decide (pyStrip cell ≠ "") && !(pyStartsWith (pyUpper (pyStrip cell)) "NO EXAM")

/-- Modelled from the spec, section 4.1: for each timetable row and each
processable session cell, split the cell on semicolons, trim the tokens, and
emit one registration tuple per (course token, enrolled roll). -/
def specRegistrations (tt : List TTRow) (cr : List CRRow) : List Reg :=
  tt.flatMap fun row =>
    (specSessions row).flatMap fun p =>
      if specProcessable p.2 then
        (((pySplitSemi (pyStrip (p.2.getD ""))).map pyStrip).filter
            fun c => decide (c ≠ "")).flatMap fun course =>
          (cr.filter fun q => q.course_code = course).map fun q =>
            ⟨pyStrip row.date, p.1, course, pyStrip q.rollno⟩
      else []

/-! ## Clash detector (`check_clashes_for_slot`, lines 412-435) -/

/-- The roll numbers of a course's rows within one slot, in row order. -/
def rollsOfCourse (slot_df : List Reg) (c : String) : List String :=
  (slot_df.filter fun x => x.course = c).map Reg.roll

/-- The ordered pairs (earlier, later) of a list: the double loop
`for i ... for j in range(i+1, ...)`. -/
def pairsAfter {α : Type} : List α → List (α × α)
  | [] => []
  | x :: xs => (xs.map fun y => (x, y)) ++ pairsAfter xs

/-- The clash detector: course codes sorted ascending, every unordered pair
once, and for each pair the sorted intersection of the two roll sets, one
clash signal per common roll. -/
def check_clashes_for_slot (slot_df : List Reg) : List Signal :=
  let courses := isortLe strLe (dedupFS (slot_df.map Reg.course))
  (pairsAfter courses).flatMap fun p =>
    let inter := isortLe strLe
      ((dedupFS (rollsOfCourse slot_df p.1)).filter
        fun r => decide (r ∈ rollsOfCourse slot_df p.2))
    inter.map fun r => Signal.clash r p.1 p.2

/-! ## Allocation engine (`allocate_for_slot`, lines 438-580) -/

/-- The dict build of `course_to_rolls`: look the course up; append the roll
when it is not yet in the course's list (the defaultdict body of the loop). -/
def addRow (acc : List (String × List String)) (row : Reg) : List (String × List String) :=
  match alookup row.course acc with
  | some rolls => if row.roll ∈ rolls then acc else aset row.course (rolls ++ [row.roll]) acc
  | none => acc ++ [(row.course, [row.roll])]

/-- `course_to_rolls`: courses in first-seen order, each with its
deduplicated roll list in first-seen order. -/
def courseToRolls (slot_df : List Reg) : List (String × List String) :=
  slot_df.foldl addRow []

/-- The fresh per-room remaining-capacity dict (`room_caps`), built row by
row with dict assignment. -/
def initCaps (rooms : List RoomInfo) : List (Key × Nat) :=
  rooms.foldl (fun m r => aput (roomKey r) (capN r) m) []

/-- One step of the `building_rooms` dict build:
`building_rooms[b].append(key)` on a defaultdict of lists. -/
def bput (m : List (String × List Key)) (r : RoomInfo) : List (String × List Key) :=
  match alookup r.building m with
  | some ks => aset r.building (ks ++ [roomKey r]) m
  | none => m ++ [(r.building, [roomKey r])]

/-- `building_rooms` before the sort: buildings in first-seen order, each
with the keys of its rooms appended in row order. -/
def building_rooms_raw (rooms : List RoomInfo) : List (String × List Key) :=
  rooms.foldl bput []

/-- Room-key order by room identifier (the `key=lambda x: x[1]` sort). -/
def roomLe (a b : Key) : Bool := strLe a.2 b.2

/-- Room-key order by (building, room) (the `key=lambda x: (x[0], x[1])` sort). -/
def keyLe (a b : Key) : Bool :=
  if strLt a.1 b.1 then true
  else if strLt b.1 a.1 then false
  else strLe a.2 b.2

/-- `building_rooms` after the per-building sort by room identifier. -/
def building_rooms (rooms : List RoomInfo) : List (String × List Key) :=
  (building_rooms_raw rooms).map fun p => (p.1, isortLe roomLe p.2)

/-- `total_capacity`: the sum of per-subject capacities over all room rows. -/
def total_capacity_of (rooms : List RoomInfo) : Nat :=
  rooms.foldl (fun t r => t + capN r) 0

/-- `total_students`: the sum of the deduplicated course sizes. -/
def total_students_of (ctr : List (String × List String)) : Nat :=
  (ctr.map fun p => p.2.length).sum

/-- The engine's sort of `course_to_rolls.items()` by descending size;
Python's sort is stable, so equal sizes keep first-seen order. -/
def sortCoursesDesc (l : List (String × List String)) : List (String × List String) :=
  isortLe (fun a b => decide (b.2.length ≤ a.2.length)) l

/-- Remaining capacity of a room key (`room_caps[key]`; the default 0 is
never read on the source's call sites, whose keys all come from the dict). -/
def capOf (caps : List (Key × Nat)) (k : Key) : Nat := (alookup k caps).getD 0

/-- What one room-filling loop leaves behind. -/
structure FillResult where
  records : List AllocRec
  remaining : List String
  caps : List (Key × Nat)
deriving DecidableEq

/-- The room-filling loop both allocation branches share verbatim: stop when
no student remains, skip drained rooms, otherwise take
`min(cap, len(remaining))` students, decrement the room's counter and emit
one record per assigned roll (name via `roll_to_name.get(roll, ...)`,
abstracted as the function `nm`). -/
def fillRooms (d s course : String) (nm : String → String) :
    List Key → List String → List (Key × Nat) → FillResult
  | [], remaining, caps => ⟨[], remaining, caps⟩
  | k :: ks, remaining, caps =>
    if remaining = [] then ⟨[], remaining, caps⟩
    else
      let cap := capOf caps k
      if cap = 0 then fillRooms d s course nm ks remaining caps
      else
        let t := min cap remaining.length
        let rest := fillRooms d s course nm ks (remaining.drop t) (aset k (cap - t) caps)
        ⟨(remaining.take t).map (fun roll => ⟨d, s, k.1, k.2, course, roll, nm roll⟩)
            ++ rest.records,
          rest.remaining, rest.caps⟩

/-- What allocating one course leaves behind. -/
structure CourseResult where
  records : List AllocRec
  caps : List (Key × Nat)
  remaining : List String
deriving DecidableEq

/-- The `building_cap` dict of the per-course loop: for each building, the
sum of its rooms' current remaining capacities. -/
def building_cap_of (bRooms : List (String × List Key)) (caps : List (Key × Nat)) :
    List (String × Nat) :=
  bRooms.map fun p => (p.1, (p.2.map (capOf caps)).sum)

/-- The `can_hold` list: the buildings whose total remaining capacity can
hold `n` students, in dict order. -/
def can_hold_of (bRooms : List (String × List Key)) (caps : List (Key × Nat))
    (n : Nat) : List String :=
  ((building_cap_of bRooms caps).filter fun bc => decide (n ≤ bc.2)).map Prod.fst

/-- The body of the per-course loop: compute each building's remaining
capacity, collect the buildings that can hold the whole course; when some
can, fill the rooms of the first one of minimal capacity (Python's stable
`sorted(can_hold, key=...)[0]`); otherwise spread over all rooms sorted by
(building, room). -/
def allocCourse (d s : String) (nm : String → String) (bRooms : List (String × List Key))
    (course : String) (rolls : List String) (caps : List (Key × Nat)) : CourseResult :=
  let building_cap : List (String × Nat) := building_cap_of bRooms caps
  let can_hold : List String := can_hold_of bRooms caps rolls.length
  match can_hold with
  | [] =>
    let all_rooms_sorted := isortLe keyLe (caps.map Prod.fst)
    let f := fillRooms d s course nm all_rooms_sorted rolls caps
    ⟨f.records, f.caps, f.remaining⟩
  | b0 :: bs =>
    let chosen := (isortLe
      (fun a b => decide ((alookup a building_cap).getD 0 ≤ (alookup b building_cap).getD 0))
      (b0 :: bs)).headD b0
    let keys := (alookup chosen bRooms).getD []
    let f := fillRooms d s course nm keys rolls caps
    ⟨f.records, f.caps, f.remaining⟩

/-- What the whole per-course loop leaves behind; `unseated` keeps, per
course with a leftover, the rolls still unallocated when the warning is
printed. -/
structure CoursesResult where
  records : List AllocRec
  caps : List (Key × Nat)
  unseated : List (String × List String)
deriving DecidableEq

/-- The per-course loop over the sorted course list. -/
def allocCourses (d s : String) (nm : String → String) (bRooms : List (String × List Key)) :
    List (String × List String) → List (Key × Nat) → CoursesResult
  | [], caps => ⟨[], caps, []⟩
  | c :: rest, caps =>
    let r1 := allocCourse d s nm bRooms c.1 c.2 caps
    let r2 := allocCourses d s nm bRooms rest r1.caps
    ⟨r1.records ++ r2.records, r2.caps,
      (if r1.remaining = [] then [] else [(c.1, r1.remaining)]) ++ r2.unseated⟩

/-- What `allocate_for_slot` returns, with its printed/logged messages as
`signals`. -/
structure SlotResult where
  allocations : List AllocRec
  room_caps : List (Key × Nat)
  signals : List Signal
  unseated : List (String × List String)
deriving DecidableEq

/-- `allocate_for_slot`: deduplicate rolls per course, build the fresh
capacity dict, pre-check slot-total demand against slot-total supply
(aborting the slot with one capacity error), then allocate the courses
largest first, warning per course left with unseated students. -/
def allocate_for_slot (d s : String) (slot_df : List Reg) (rooms : List RoomInfo)
    (nm : String → String) : SlotResult :=
  let ctr := courseToRolls slot_df
  let room_caps := initCaps rooms
  let bRooms := building_rooms rooms
  let total_students := total_students_of ctr
  let total_capacity := total_capacity_of rooms
  if total_capacity < total_students then
    ⟨[], room_caps, [Signal.capacityError d s total_students total_capacity], []⟩
  else
    let r := allocCourses d s nm bRooms (sortCoursesDesc ctr) room_caps
    ⟨r.records, r.caps, r.unseated.map fun p => Signal.unseated d s p.1 p.2.length, r.unseated⟩

/-! ## The per-slot loop of `main` (lines 1017-1027) -/

/-- The groupby key of a registration row. -/
def slotKeyOf (r : Reg) : Key := (r.date, r.slot)

/-- The slot keys as `reg_df.groupby(["date", "slot"])` yields them: distinct,
sorted ascending by (date, slot). -/
def slotKeys (regs : List Reg) : List Key :=
  isortLe keyLe (dedupFS (regs.map slotKeyOf))

/-- The rows of one slot, in original order. -/
def rowsFor (regs : List Reg) (k : Key) : List Reg :=
  regs.filter fun r => decide (slotKeyOf r = k)

/-- What one run of the per-slot loop accumulates. -/
structure RunResult where
  all_allocations : List AllocRec
  per_slot_room_caps : List (Key × List (Key × Nat))
  signals : List Signal
deriving DecidableEq

/-- The loop of `main`: per slot, clash check then allocation, extending the
global record list and storing the slot's final capacity dict. -/
def process_slots (regs : List Reg) (rooms : List RoomInfo) (nm : String → String) : RunResult :=
  (slotKeys regs).foldl
    (fun acc k =>
      let slot_df := rowsFor regs k
      let clashes := check_clashes_for_slot slot_df
      let res := allocate_for_slot k.1 k.2 slot_df rooms nm
      ⟨acc.all_allocations ++ res.allocations,
        aput k res.room_caps acc.per_slot_room_caps,
        acc.signals ++ clashes ++ res.signals⟩)
    ⟨[], [], []⟩

/-! ## Report aggregator (`build_overall_and_seats`, lines 583-662) -/

/-- One roster row of `op_overall_seating_arrangement.xlsx`. -/
structure RosterRow where
  date : String
  slot : String
  building : String
  room : String
  course : String
  rollNumbers : String
  names : String
deriving DecidableEq

/-- One usage row of `op_seats_left.xlsx`; `used` is the Python int
`base - remaining`. -/
structure SeatsRow where
  date : String
  slot : String
  building : String
  room : String
  base : Nat
  used : Int
  left : Nat
deriving DecidableEq

/-- The five-column groupby key of a record. -/
def key5 (a : AllocRec) : String × String × String × String × String :=
  (a.date, a.slot, a.building, a.room, a.course)

/-- Lexicographic order on the five-column key (pandas sorts group keys). -/
def le5 (x y : String × String × String × String × String) : Bool :=
  if strLt x.1 y.1 then true
  else if strLt y.1 x.1 then false
  else if strLt x.2.1 y.2.1 then true
  else if strLt y.2.1 x.2.1 then false
  else if strLt x.2.2.1 y.2.2.1 then true
  else if strLt y.2.2.1 x.2.2.1 then false
  else if strLt x.2.2.2.1 y.2.2.2.1 then true
  else if strLt y.2.2.2.1 x.2.2.2.1 then false
  else strLe x.2.2.2.2 y.2.2.2.2

/-- The aggregated roster rows: groups sorted by key, rows inside a group in
record order, rolls and names joined with semicolons. -/
def rosterRows (recs : List AllocRec) : List RosterRow :=
  (isortLe le5 (dedupFS (recs.map key5))).map fun k =>
    let g := recs.filter fun a => decide (key5 a = k)
    ⟨k.1, k.2.1, k.2.2.1, k.2.2.2.1, k.2.2.2.2,
      joinSemi (g.map AllocRec.roll), joinSemi (g.map AllocRec.name)⟩

/-- `room_base_cap`: the same dict build as `initCaps`, from the same rows
and the same per-subject value (source lines 628-631). -/
def room_base_cap (rooms : List RoomInfo) : List (Key × Nat) := initCaps rooms

/-- The seats-left rows: every slot's final capacity dict in storage order,
every room entry in dict order, base capacity looked up in `room_base_cap`. -/
def seats_rows (per_slot : List (Key × List (Key × Nat))) (rooms : List RoomInfo) :
    List SeatsRow :=
  per_slot.flatMap fun p =>
    p.2.map fun q =>
      let base := (alookup q.1 (room_base_cap rooms)).getD 0
      ⟨p.1.1, p.1.2, q.1.1, q.1.2, base, (base : Int) - (q.2 : Int), q.2⟩

/-- `build_overall_and_seats`: `none` models the early `return None, None`
when there is no allocation at all; otherwise the two row lists. -/
def build_overall_and_seats (allocs : List AllocRec)
    (per_slot : List (Key × List (Key × Nat))) (rooms : List RoomInfo) :
    Option (List RosterRow × List SeatsRow) :=
  if allocs = [] then none else some (rosterRows allocs, seats_rows per_slot rooms)

/-- The whole deterministic core of `main`: plan capacities, run every slot,
aggregate. Its arguments are exactly the run inputs the spec names:
registrations, rooms, buffer, mode (and the roll-name lookup). -/
def run_pipeline (class_df : List ClassRoom) (buffer : Int) (mode : String)
    (regs : List Reg) (nm : String → String) :
    RunResult × Option (List RosterRow × List SeatsRow) :=
  let rooms := compute_effective_capacities class_df buffer mode
  let run := process_slots regs rooms nm
  (run, build_overall_and_seats run.all_allocations run.per_slot_room_caps rooms)

/-! ## Spec-side definitions for the per-course placement (spec section 4.4) -/

/-- Modelled from the spec: the buildings of the slot, in discovery order. -/
def specBuildings (rooms : List RoomInfo) : List String :=
  dedupFS (rooms.map RoomInfo.building)

/-- Modelled from the spec, step 1: a building's total remaining capacity,
summed over its rooms. -/
def specBuildingCap (caps : List (Key × Nat)) (rooms : List RoomInfo) (b : String) : Nat :=
  (((rooms.filter fun r => decide (r.building = b)).map roomKey).map (capOf caps)).sum

/-- Modelled from the spec, step 2: a building's rooms in ascending
room-identifier order. -/
def roomsAsc (rooms : List RoomInfo) (b : String) : List Key :=
  isortLe roomLe ((rooms.filter fun r => decide (r.building = b)).map roomKey)

/-- Modelled from the spec, step 3: all rooms slot-wide in ascending
(building, room identifier) order. -/
def allRoomsAsc (rooms : List RoomInfo) : List Key :=
  isortLe keyLe (rooms.map roomKey)

/-- Modelled from the spec, steps 2-3: the greedy per-room fill rule, taking
min(room's remaining capacity, students still unseated) from each room in the
given order while decrementing that room's remaining capacity. -/
def greedyAssign (caps : List (Key × Nat)) :
    List Key → List String → List (Key × List String) × List String × List (Key × Nat)
  | [], rolls => ([], rolls, caps)
  | k :: ks, rolls =>
    let t := min (capOf caps k) rolls.length
    let rest := greedyAssign (aset k (capOf caps k - t) caps) ks (rolls.drop t)
    ((k, rolls.take t) :: rest.1, rest.2.1, rest.2.2)

/-- The allocation records a greedy assignment denotes, in order. -/
def flatRecs (d s course : String) (nm : String → String)
    (l : List (Key × List String)) : List AllocRec :=
  l.flatMap fun p => p.2.map fun roll => ⟨d, s, p.1.1, p.1.2, course, roll, nm roll⟩

/-! ## Concrete inputs for witnesses and counterexamples -/

/-- A name lookup used by the concrete runs below. -/
def wNames : String → String := fun _ => "Unknown Name"

/-- Two buildings: B1 with rooms 101 and 102 (5 seats each), B2 with room
201 (20 seats). -/
def wRooms : List RoomInfo :=
  [⟨"B1", "101", 5, 5, 5⟩, ⟨"B1", "102", 5, 5, 5⟩, ⟨"B2", "201", 20, 20, 20⟩]

/-- Eight students of one course. -/
def wRolls : List String := ["r1", "r2", "r3", "r4", "r5", "r6", "r7", "r8"]

/-- One slot, one course `A` with eight students. -/
def wRegs : List Reg :=
  wRolls.map fun r => ⟨"2024-01-01", "morning", "A", r⟩

/-- A slot whose only course has one student while no room exists: the
capacity pre-check fails. -/
def cexRegsA : List Reg := [⟨"2024-01-01", "morning", "A", "r1"⟩]

/-- A slot with a clash (roll r1 in courses A and B) and no room: the
capacity pre-check fails, so nobody is seated although the clash is
reported. -/
def cexRegsB : List Reg :=
  [⟨"2024-01-01", "morning", "A", "r1"⟩, ⟨"2024-01-01", "morning", "B", "r1"⟩]

/-- A two-slot run: the morning slot of `cexRegsA` plus an evening slot with
course `C`, one student, which fits the single room of `wRoomsSmall`. -/
def wRegsTwoSlots : List Reg :=
  [⟨"2024-01-01", "morning", "A", "r1"⟩, ⟨"2024-01-01", "morning", "A", "r2"⟩,
   ⟨"2024-01-01", "evening", "C", "r1"⟩]

/-- One room with one seat. -/
def wRoomsSmall : List RoomInfo := [⟨"B1", "101", 1, 1, 1⟩]

/-! # Theorems -/

/-! ## The string order -/

theorem clLt_cons_lt {a b : Char} {as bs : List Char} (h : a.toNat < b.toNat) :
    clLt (a :: as) (b :: bs) = true := by
  simp only [clLt]
  rw [if_pos h]

theorem clLt_cons_gt {a b : Char} {as bs : List Char} (h : b.toNat < a.toNat) :
    clLt (a :: as) (b :: bs) = false := by
  simp only [clLt]
  rw [if_neg (by omega), if_pos h]

theorem clLt_cons_same {a b : Char} {as bs : List Char} (h : a.toNat = b.toNat) :
    clLt (a :: as) (b :: bs) = clLt as bs := by
  simp only [clLt]
  rw [if_neg (by omega), if_neg (by omega)]

theorem clLt_irrefl : ∀ l : List Char, clLt l l = false
  | [] => rfl
  | a :: as => by rw [clLt_cons_same rfl, clLt_irrefl as]

theorem clLt_cases : ∀ x y : List Char,
    (clLt x y = true ∧ clLt y x = false) ∨ (clLt x y = false ∧ clLt y x = true) ∨
      (clLt x y = false ∧ clLt y x = false ∧ x = y)
  | [], [] => by simp [clLt]
  | [], _ :: _ => by simp [clLt]
  | _ :: _, [] => by simp [clLt]
  | a :: as, b :: bs => by
    rcases Nat.lt_trichotomy a.toNat b.toNat with h | h | h
    · exact Or.inl ⟨clLt_cons_lt h, clLt_cons_gt h⟩
    · have hab : a = b := Char.ext (UInt32.ext h)
      subst hab
      rcases clLt_cases as bs with ⟨h1, h2⟩ | ⟨h1, h2⟩ | ⟨h1, h2, h3⟩
      · exact Or.inl ⟨by rw [clLt_cons_same rfl, h1], by rw [clLt_cons_same rfl, h2]⟩
      · exact Or.inr (Or.inl ⟨by rw [clLt_cons_same rfl, h1], by rw [clLt_cons_same rfl, h2]⟩)
      · exact Or.inr (Or.inr ⟨by rw [clLt_cons_same rfl, h1], by rw [clLt_cons_same rfl, h2],
          by rw [h3]⟩)
    · exact Or.inr (Or.inl ⟨clLt_cons_gt h, clLt_cons_lt h⟩)

theorem clLt_trans : ∀ x y z : List Char,
    clLt x y = true → clLt y z = true → clLt x z = true
  | [], [], _ => by simp [clLt]
  | [], _ :: _, [] => by simp [clLt]
  | [], _ :: _, _ :: _ => by simp [clLt]
  | _ :: _, [], _ => by simp [clLt]
  | _ :: _, _ :: _, [] => by simp [clLt]
  | a :: as, b :: bs, c :: cs => by
    intro hxy hyz
    rcases Nat.lt_trichotomy a.toNat b.toNat with h1 | h1 | h1
    · rcases Nat.lt_trichotomy b.toNat c.toNat with h2 | h2 | h2
      · exact clLt_cons_lt (Nat.lt_trans h1 h2)
      · exact clLt_cons_lt (h2 ▸ h1)
      · rw [clLt_cons_gt h2] at hyz; cases hyz
    · rcases Nat.lt_trichotomy b.toNat c.toNat with h2 | h2 | h2
      · exact clLt_cons_lt (h1 ▸ h2)
      · rw [clLt_cons_same h1] at hxy
        rw [clLt_cons_same h2] at hyz
        rw [clLt_cons_same (h2 ▸ h1), clLt_trans as bs cs hxy hyz]
      · rw [clLt_cons_gt h2] at hyz; cases hyz
    · rw [clLt_cons_gt h1] at hxy; cases hxy

theorem clLt_le_trans {x y z : List Char} (h1 : clLt y x = false) (h2 : clLt z y = false) :
    clLt z x = false := by
  by_contra h
  rw [Bool.not_eq_false] at h
  rcases clLt_cases x y with ⟨g1, g2⟩ | ⟨g1, g2⟩ | ⟨g1, g2, g3⟩
  · exact absurd (clLt_trans z x y h g1) (by rw [h2]; simp)
  · exact absurd g2 (by rw [h1]; simp)
  · rw [g3] at h
    exact absurd h (by rw [h2]; simp)

theorem strLt_cases (a b : String) :
    (strLt a b = true ∧ strLt b a = false) ∨ (strLt a b = false ∧ strLt b a = true) ∨
      (strLt a b = false ∧ strLt b a = false ∧ a = b) := by
  rcases clLt_cases a.data b.data with ⟨h1, h2⟩ | ⟨h1, h2⟩ | ⟨h1, h2, h3⟩
  · exact Or.inl ⟨h1, h2⟩
  · exact Or.inr (Or.inl ⟨h1, h2⟩)
  · exact Or.inr (Or.inr ⟨h1, h2, String.ext h3⟩)

theorem strLt_asymm {a b : String} (h : strLt a b = true) : strLt b a = false := by
  rcases strLt_cases a b with ⟨h1, h2⟩ | ⟨h1, h2⟩ | ⟨h1, h2, h3⟩ <;> simp_all

theorem strEq_of_not_lt {a b : String} (h1 : strLt a b = false) (h2 : strLt b a = false) :
    a = b := by
  rcases strLt_cases a b with ⟨g1, g2⟩ | ⟨g1, g2⟩ | ⟨g1, g2, g3⟩ <;> simp_all

theorem strLt_trans {a b c : String} (h1 : strLt a b = true) (h2 : strLt b c = true) :
    strLt a c = true :=
  clLt_trans a.data b.data c.data h1 h2

theorem strLe_refl (a : String) : strLe a a = true := by
  simp [strLe, strLt, clLt_irrefl]

theorem strLe_total (a b : String) : strLe a b = true ∨ strLe b a = true := by
  rcases strLt_cases a b with ⟨h1, h2⟩ | ⟨h1, h2⟩ | ⟨h1, h2, h3⟩
  · exact Or.inl (by simp [strLe, h2])
  · exact Or.inr (by simp [strLe, h1])
  · exact Or.inl (by simp [strLe, h2])

theorem strLe_trans {a b c : String} (h1 : strLe a b = true) (h2 : strLe b c = true) :
    strLe a c = true := by
  simp only [strLe, Bool.not_eq_true'] at h1 h2 ⊢
  exact clLt_le_trans h1 h2

theorem strLt_of_le_of_ne {a b : String} (h : strLe a b = true) (hne : a ≠ b) :
    strLt a b = true := by
  simp only [strLe, Bool.not_eq_true'] at h
  by_contra hab
  rw [Bool.not_eq_true] at hab
  exact hne (strEq_of_not_lt hab h)

theorem roomLe_total (a b : Key) : roomLe a b = true ∨ roomLe b a = true :=
  strLe_total a.2 b.2

theorem roomLe_trans {a b c : Key} (h1 : roomLe a b = true) (h2 : roomLe b c = true) :
    roomLe a c = true :=
  strLe_trans h1 h2

theorem keyLe_total (a b : Key) : keyLe a b = true ∨ keyLe b a = true := by
  unfold keyLe
  rcases strLt_cases a.1 b.1 with ⟨h1, h2⟩ | ⟨h1, h2⟩ | ⟨h1, h2, h3⟩
  · left; rw [if_pos h1]
  · right; rw [if_pos h2]
  · rcases strLe_total a.2 b.2 with h | h
    · left; rw [if_neg (by simp [h1]), if_neg (by simp [h2]), h]
    · right; rw [if_neg (by simp [h2]), if_neg (by simp [h1]), h]

theorem keyLe_trans {a b c : Key} (h1 : keyLe a b = true) (h2 : keyLe b c = true) :
    keyLe a c = true := by
  unfold keyLe at h1 h2 ⊢
  rcases strLt_cases a.1 b.1 with ⟨g1, g2⟩ | ⟨g1, g2⟩ | ⟨g1, g2, g3⟩
  · rcases strLt_cases b.1 c.1 with ⟨f1, f2⟩ | ⟨f1, f2⟩ | ⟨f1, f2, f3⟩
    · rw [if_pos (strLt_trans g1 f1)]
    · rw [if_pos f2, if_neg (by simp [f1])] at h2; cases h2
    · rw [if_pos (f3 ▸ g1)]
  · rw [if_pos g2, if_neg (by simp [g1])] at h1; cases h1
  · rcases strLt_cases b.1 c.1 with ⟨f1, f2⟩ | ⟨f1, f2⟩ | ⟨f1, f2, f3⟩
    · rw [if_pos (g3 ▸ f1)]
    · rw [if_pos f2, if_neg (by simp [f1])] at h2; cases h2
    · have e : a.1 = c.1 := g3.trans f3
      rw [if_neg (by simp [g1]), if_neg (by simp [g2])] at h1
      rw [if_neg (by simp [f1]), if_neg (by simp [f2])] at h2
      rw [if_neg (by rw [g3, f3]; simp [strLt, clLt_irrefl]),
        if_neg (by rw [g3, f3]; simp [strLt, clLt_irrefl]), strLe_trans h1 h2]

/-! ## Association list lemmas -/

section AssocLemmas

variable {α β γ : Type} [DecidableEq α]

theorem alookup_cons_pos {k a : α} {b : β} {rest : List (α × β)} (h : a = k) :
    alookup k ((a, b) :: rest) = some b := by
  simp [alookup, h]

theorem alookup_cons_neg {k a : α} {b : β} {rest : List (α × β)} (h : ¬ a = k) :
    alookup k ((a, b) :: rest) = alookup k rest := by
  simp [alookup, h]

theorem aset_cons_pos {k a : α} {v b : β} {rest : List (α × β)} (h : a = k) :
    aset k v ((a, b) :: rest) = (k, v) :: rest := by
  simp [aset, h]

theorem aset_cons_neg {k a : α} {v b : β} {rest : List (α × β)} (h : ¬ a = k) :
    aset k v ((a, b) :: rest) = (a, b) :: aset k v rest := by
  simp [aset, h]

theorem alookup_eq_none {k : α} : ∀ {l : List (α × β)},
    alookup k l = none ↔ k ∉ l.map Prod.fst
  | [] => by simp [alookup]
  | (a, b) :: rest => by
    by_cases h : a = k
    · subst h
      rw [alookup_cons_pos rfl]
      simp
    · rw [alookup_cons_neg h]
      simp [h, alookup_eq_none, Ne.symm h]

theorem alookup_isSome {k : α} {l : List (α × β)} :
    (alookup k l).isSome ↔ k ∈ l.map Prod.fst := by
  rcases h : alookup k l with _ | v
  · simp [alookup_eq_none.mp h]
  · simp only [Option.isSome_some, true_iff]
    by_contra hk
    rw [alookup_eq_none.mpr hk] at h
    cases h

theorem alookup_append_some {k : α} {v : β} {m : List (α × β)} : ∀ {l : List (α × β)},
    alookup k l = some v → alookup k (l ++ m) = some v
  | [], h => by cases h
  | (a, b) :: rest, h => by
    by_cases hp : a = k
    · rw [alookup_cons_pos hp] at h
      rw [List.cons_append, alookup_cons_pos hp, h]
    · rw [alookup_cons_neg hp] at h
      rw [List.cons_append, alookup_cons_neg hp, alookup_append_some h]

theorem alookup_append_none {k : α} {m : List (α × β)} : ∀ {l : List (α × β)},
    alookup k l = none → alookup k (l ++ m) = alookup k m
  | [], _ => rfl
  | (a, b) :: rest, h => by
    by_cases hp : a = k
    · rw [alookup_cons_pos hp] at h
      cases h
    · rw [alookup_cons_neg hp] at h
      rw [List.cons_append, alookup_cons_neg hp, alookup_append_none h]

theorem aset_keys (k : α) (v : β) : ∀ l : List (α × β),
    (aset k v l).map Prod.fst = l.map Prod.fst
  | [] => rfl
  | (a, b) :: rest => by
    by_cases h : a = k
    · rw [aset_cons_pos h]
      simp [h]
    · rw [aset_cons_neg h]
      simp [aset_keys k v rest]

theorem alookup_aset_self {k : α} {v : β} : ∀ {l : List (α × β)},
    (alookup k l).isSome → alookup k (aset k v l) = some v
  | [], h => by simp [alookup] at h
  | (a, b) :: rest, h => by
    by_cases hp : a = k
    · rw [aset_cons_pos hp, alookup_cons_pos rfl]
    · rw [alookup_cons_neg hp] at h
      rw [aset_cons_neg hp, alookup_cons_neg hp, alookup_aset_self h]

theorem alookup_aset_of_ne {k k' : α} {v : β} (hne : k' ≠ k) : ∀ {l : List (α × β)},
    alookup k' (aset k v l) = alookup k' l
  | [] => rfl
  | (a, b) :: rest => by
    by_cases hp : a = k
    · rw [aset_cons_pos hp, alookup_cons_neg (Ne.symm hne),
        alookup_cons_neg (fun e => hne (e.symm.trans hp))]
    · by_cases hp' : a = k'
      · rw [aset_cons_neg hp, alookup_cons_pos hp', alookup_cons_pos hp']
      · rw [aset_cons_neg hp, alookup_cons_neg hp', alookup_cons_neg hp',
          alookup_aset_of_ne hne]

theorem aset_of_lookup_some {k : α} {v : β} : ∀ {l : List (α × β)},
    alookup k l = some v → aset k v l = l
  | [], h => by cases h
  | (a, b) :: rest, h => by
    by_cases hp : a = k
    · rw [alookup_cons_pos hp] at h
      rw [aset_cons_pos hp, hp, Option.some.inj h]
    · rw [alookup_cons_neg hp] at h
      rw [aset_cons_neg hp, aset_of_lookup_some h]

theorem aset_of_lookup_none {k : α} {v : β} : ∀ {l : List (α × β)},
    alookup k l = none → aset k v l = l
  | [], _ => rfl
  | (a, b) :: rest, h => by
    by_cases hp : a = k
    · rw [alookup_cons_pos hp] at h
      cases h
    · rw [alookup_cons_neg hp] at h
      rw [aset_cons_neg hp, aset_of_lookup_none h]

theorem alookup_of_mem_nodup {k : α} {v : β} : ∀ {l : List (α × β)},
    (l.map Prod.fst).Nodup → (k, v) ∈ l → alookup k l = some v
  | [], _, h => by cases h
  | (a, b) :: rest, hnd, h => by
    rcases List.mem_cons.mp h with he | h'
    · cases he
      exact alookup_cons_pos rfl
    · have hk : a ≠ k := by
        intro e
        have : k ∈ rest.map Prod.fst := List.mem_map.mpr ⟨(k, v), h', rfl⟩
        rw [List.map_cons, List.nodup_cons] at hnd
        exact hnd.1 (e ▸ this)
      rw [alookup_cons_neg hk]
      rw [List.map_cons, List.nodup_cons] at hnd
      exact alookup_of_mem_nodup hnd.2 h'

theorem mem_of_alookup_some {k : α} {v : β} : ∀ {l : List (α × β)},
    alookup k l = some v → (k, v) ∈ l
  | [], h => by cases h
  | (a, b) :: rest, h => by
    by_cases hp : a = k
    · rw [alookup_cons_pos hp] at h
      cases h
      exact hp ▸ List.mem_cons_self _ _
    · rw [alookup_cons_neg hp] at h
      exact List.mem_cons.mpr (Or.inr (mem_of_alookup_some h))

theorem alookup_map_snd (f : β → γ) (k : α) : ∀ l : List (α × β),
    alookup k (l.map fun p => (p.1, f p.2)) = (alookup k l).map f
  | [] => rfl
  | (a, b) :: rest => by
    rw [List.map_cons]
    by_cases hp : a = k
    · show alookup k ((a, f b) :: rest.map fun p => (p.1, f p.2)) = _
      rw [alookup_cons_pos hp, alookup_cons_pos hp]
      rfl
    · show alookup k ((a, f b) :: rest.map fun p => (p.1, f p.2)) = _
      rw [alookup_cons_neg hp, alookup_cons_neg hp, alookup_map_snd f k rest]

theorem aput_of_not_mem {k : α} {v : β} {l : List (α × β)}
    (h : k ∉ l.map Prod.fst) : aput k v l = l ++ [(k, v)] := by
  unfold aput
  rw [if_neg (by rw [alookup_isSome]; exact h)]

theorem aput_keys_nodup {k : α} {v : β} {l : List (α × β)}
    (hnd : (l.map Prod.fst).Nodup) : ((aput k v l).map Prod.fst).Nodup := by
  unfold aput
  by_cases h : (alookup k l).isSome
  · rw [if_pos h, aset_keys]
    exact hnd
  · rw [if_neg h]
    have hk : k ∉ l.map Prod.fst := by rw [← alookup_isSome]; exact h
    simp only [List.map_append, List.map_cons, List.map_nil]
    refine List.Nodup.append hnd (List.nodup_singleton k) ?_
    intro x hx hx'
    simp only [List.mem_singleton] at hx'
    exact hk (hx' ▸ hx)

theorem aset_snd_sum {k : α} {c : Nat} (v : Nat) : ∀ {l : List (α × Nat)},
    alookup k l = some c →
    ((aset k v l).map Prod.snd).sum + c = (l.map Prod.snd).sum + v
  | [], h => by cases h
  | (a, b) :: rest, h => by
    by_cases hp : a = k
    · rw [alookup_cons_pos hp] at h
      cases h
      rw [aset_cons_pos hp]
      simp only [List.map_cons, List.sum_cons]
      omega
    · rw [alookup_cons_neg hp] at h
      have := aset_snd_sum v h
      rw [aset_cons_neg hp]
      simp only [List.map_cons, List.sum_cons]
      omega

end AssocLemmas

/-! ## First-seen dedup lemmas -/

theorem mem_dedupFS {α : Type} [DecidableEq α] {a : α} : ∀ {l : List α},
    a ∈ dedupFS l ↔ a ∈ l
  | [] => Iff.rfl
  | x :: xs => by
    by_cases h : a = x
    · simp [dedupFS, h]
    · simp [dedupFS, h, List.mem_filter, mem_dedupFS]

theorem dedupFS_nodup {α : Type} [DecidableEq α] : ∀ l : List α, (dedupFS l).Nodup
  | [] => List.nodup_nil
  | x :: xs => by
    rw [dedupFS, List.nodup_cons]
    refine ⟨fun hx => ?_, List.Nodup.filter _ (dedupFS_nodup xs)⟩
    rcases List.mem_filter.mp hx with ⟨_, hne⟩
    simp at hne

/-! ## Stable insertion sort lemmas -/

section SortLemmas

variable {α : Type}

theorem insertLe_perm (le : α → α → Bool) (x : α) : ∀ l : List α,
    (insertLe le x l).Perm (x :: l)
  | [] => List.Perm.refl _
  | y :: ys => by
    unfold insertLe
    by_cases h : le x y = true
    · rw [if_pos h]
    · rw [if_neg h]
      exact ((insertLe_perm le x ys).cons y).trans (List.Perm.swap x y ys)

theorem isortLe_perm (le : α → α → Bool) : ∀ l : List α, (isortLe le l).Perm l
  | [] => List.Perm.refl _
  | x :: xs => (insertLe_perm le x _).trans ((isortLe_perm le xs).cons x)

theorem mem_isortLe {le : α → α → Bool} {a : α} {l : List α} :
    a ∈ isortLe le l ↔ a ∈ l :=
  (isortLe_perm le l).mem_iff

theorem isortLe_nodup {le : α → α → Bool} {l : List α} (h : l.Nodup) :
    (isortLe le l).Nodup :=
  ((isortLe_perm le l).nodup_iff).mpr h

theorem insertLe_pairwise {le : α → α → Bool}
    (htot : ∀ a b, le a b = true ∨ le b a = true)
    (htr : ∀ a b c, le a b = true → le b c = true → le a c = true) (x : α) :
    ∀ {l : List α}, l.Pairwise (fun a b => le a b = true) →
      (insertLe le x l).Pairwise (fun a b => le a b = true)
  | [], _ => by simp [insertLe]
  | y :: ys, h => by
    unfold insertLe
    rcases List.pairwise_cons.mp h with ⟨hy, hys⟩
    by_cases hxy : le x y = true
    · rw [if_pos hxy]
      refine List.pairwise_cons.mpr ⟨?_, h⟩
      intro b hb
      rcases List.mem_cons.mp hb with rfl | hb
      · exact hxy
      · exact htr x y b hxy (hy b hb)
    · rw [if_neg hxy]
      refine List.pairwise_cons.mpr ⟨?_, insertLe_pairwise htot htr x hys⟩
      intro b hb
      have hb' := (insertLe_perm le x ys).mem_iff.mp hb
      rcases List.mem_cons.mp hb' with rfl | hb'
      · rcases htot y b with h' | h'
        · exact h'
        · exact absurd h' hxy
      · exact hy b hb'

theorem isortLe_pairwise {le : α → α → Bool}
    (htot : ∀ a b, le a b = true ∨ le b a = true)
    (htr : ∀ a b c, le a b = true → le b c = true → le a c = true) :
    ∀ l : List α, (isortLe le l).Pairwise (fun a b => le a b = true)
  | [] => List.Pairwise.nil
  | x :: xs => insertLe_pairwise htot htr x (isortLe_pairwise htot htr xs)

theorem isortLe_headD_min {le : α → α → Bool}
    (htot : ∀ a b, le a b = true ∨ le b a = true)
    (htr : ∀ a b c, le a b = true → le b c = true → le a c = true)
    {l : List α} (hne : l ≠ []) (d : α) :
    (isortLe le l).headD d ∈ l ∧ ∀ a ∈ l, le ((isortLe le l).headD d) a = true := by
  have hp := isortLe_pairwise htot htr l
  have hperm := isortLe_perm le l
  rcases hs : isortLe le l with _ | ⟨h, t⟩
  · rw [hs] at hperm
    exact absurd hperm.symm.eq_nil hne
  · rw [hs] at hperm hp
    rcases List.pairwise_cons.mp hp with ⟨hh, _⟩
    constructor
    · exact hperm.mem_iff.mp (List.mem_cons_self h t)
    · intro a ha
      rcases List.mem_cons.mp (hperm.mem_iff.mpr ha) with rfl | ha'
      · rcases htot a a with h' | h' <;> exact h'
      · exact hh a ha'

/-- Stability of the descending sort by a numeric key: each key-class keeps
its original order. -/
theorem insertLe_desc_filter (f : α → Nat) (x : α) (n : Nat) : ∀ l : List α,
    (insertLe (fun a b => decide (f b ≤ f a)) x l).filter (fun y => decide (f y = n)) =
      if f x = n then x :: l.filter (fun y => decide (f y = n))
      else l.filter (fun y => decide (f y = n))
  | [] => by by_cases h : f x = n <;> simp [insertLe, h]
  | y :: ys => by
    unfold insertLe
    by_cases hxy : f y ≤ f x
    · rw [if_pos (by simpa using hxy)]
      by_cases h : f x = n <;> simp [List.filter_cons, h]
    · rw [if_neg (by simpa using hxy)]
      have IH := insertLe_desc_filter f x n ys
      by_cases hy : f y = n
      · have hxn : ¬ f x = n := by omega
        rw [if_neg hxn] at IH
        rw [List.filter_cons, if_pos (by simp [hy]), IH, if_neg hxn,
          List.filter_cons, if_pos (by simp [hy])]
      · rw [List.filter_cons, if_neg (by simp [hy]), IH]
        by_cases h : f x = n
        · rw [if_pos h, if_pos h, List.filter_cons, if_neg (by simp [hy])]
        · rw [if_neg h, if_neg h, List.filter_cons, if_neg (by simp [hy])]

theorem isortLe_desc_filter (f : α → Nat) (n : Nat) : ∀ l : List α,
    (isortLe (fun a b => decide (f b ≤ f a)) l).filter (fun y => decide (f y = n)) =
      l.filter (fun y => decide (f y = n))
  | [] => rfl
  | x :: xs => by
    rw [isortLe, insertLe_desc_filter f x n _, isortLe_desc_filter f n xs]
    by_cases h : f x = n <;> simp [List.filter_cons, h]

end SortLemmas

/-! ## Boolean filter helpers -/

theorem filter_both_eq {α : Type} (p q : α → Bool) (h : ∀ x, q x = true → p x = true) :
    ∀ l : List α, (l.filter p).filter q = l.filter q := by
  intro l
  rw [List.filter_filter]
  apply List.filter_congr
  intro x _
  cases hq : q x
  · simp
  · simp [h x hq]

theorem decide_not_mem_append_singleton {α : Type} [DecidableEq α] (x c : α) (ks : List α) :
    decide (x ∉ ks ++ [c]) = (decide (x ≠ c) && decide (x ∉ ks)) := by
  rw [← Bool.decide_and]
  apply decide_eq_decide.mpr
  simp [List.mem_append]
  tauto

theorem decide_not_mem_singleton {α : Type} [DecidableEq α] (x c : α) :
    decide (x ∉ [c]) = decide (x ≠ c) := by
  apply decide_eq_decide.mpr
  simp

/-! ## The `course_to_rolls` dict build -/

theorem addRow_eq_some {acc : List (String × List String)} {row : Reg} {rolls : List String}
    (h : alookup row.course acc = some rolls) :
    addRow acc row =
      if row.roll ∈ rolls then acc else aset row.course (rolls ++ [row.roll]) acc := by
  unfold addRow
  rw [h]

theorem addRow_eq_none {acc : List (String × List String)} {row : Reg}
    (h : alookup row.course acc = none) :
    addRow acc row = acc ++ [(row.course, [row.roll])] := by
  unfold addRow
  rw [h]

theorem addRow_keys (acc : List (String × List String)) (row : Reg) :
    (addRow acc row).map Prod.fst =
      if row.course ∈ acc.map Prod.fst then acc.map Prod.fst
      else acc.map Prod.fst ++ [row.course] := by
  rcases h : alookup row.course acc with _ | rolls
  · rw [addRow_eq_none h, if_neg (alookup_eq_none.mp h)]
    simp
  · have hmem : row.course ∈ acc.map Prod.fst :=
      alookup_isSome.mp (by rw [h]; rfl)
    rw [addRow_eq_some h, if_pos hmem]
    by_cases hr : row.roll ∈ rolls
    · rw [if_pos hr]
    · rw [if_neg hr, aset_keys]

theorem addRow_lookup_other {acc : List (String × List String)} {row : Reg} {c : String}
    (hne : row.course ≠ c) : alookup c (addRow acc row) = alookup c acc := by
  rcases h : alookup row.course acc with _ | rolls
  · rw [addRow_eq_none h]
    rcases hc : alookup c acc with _ | v
    · rw [alookup_append_none hc, alookup_cons_neg hne]
      rfl
    · rw [alookup_append_some hc]
  · rw [addRow_eq_some h]
    by_cases hr : row.roll ∈ rolls
    · rw [if_pos hr]
    · rw [if_neg hr, alookup_aset_of_ne (Ne.symm hne)]

theorem foldl_addRow_keys : ∀ (rows : List Reg) (acc : List (String × List String)),
    (rows.foldl addRow acc).map Prod.fst =
      acc.map Prod.fst ++
        (dedupFS (rows.map Reg.course)).filter (fun c => decide (c ∉ acc.map Prod.fst))
  | [], acc => by simp [dedupFS]
  | row :: rest, acc => by
    rw [List.foldl_cons, foldl_addRow_keys rest (addRow acc row), addRow_keys]
    by_cases hc : row.course ∈ acc.map Prod.fst
    · rw [if_pos hc]
      congr 1
      rw [List.map_cons, dedupFS, List.filter_cons]
      rw [if_neg (by simp [hc])]
      rw [filter_both_eq _ _ ?imp]
      case imp =>
        intro x hx
        simp only [decide_eq_true_eq] at hx ⊢
        exact fun e => hx (e ▸ hc)
    · rw [if_neg hc]
      rw [List.map_cons, dedupFS, List.filter_cons, if_pos (by simp [hc])]
      rw [List.append_assoc]
      congr 1
      rw [List.singleton_append]
      congr 1
      rw [List.filter_filter]
      apply List.filter_congr
      intro x _
      rw [decide_not_mem_append_singleton]
      rw [Bool.and_comm]

theorem foldl_addRow_lookup_some :
    ∀ (rows : List Reg) (acc : List (String × List String)) (c : String) (v : List String),
    alookup c acc = some v →
    alookup c (rows.foldl addRow acc) =
      some (v ++ (dedupFS (rollsOfCourse rows c)).filter (fun r => decide (r ∉ v)))
  | [], acc, c, v, h => by simp [rollsOfCourse, dedupFS, h]
  | row :: rest, acc, c, v, h => by
    rw [List.foldl_cons]
    by_cases hcc : row.course = c
    · have hrolls : rollsOfCourse (row :: rest) c = row.roll :: rollsOfCourse rest c := by
        unfold rollsOfCourse
        rw [List.filter_cons, if_pos (by simp [hcc])]
        rfl
      have hlook : alookup row.course acc = some v := by rw [hcc]; exact h
      by_cases hr : row.roll ∈ v
      · have hstep : addRow acc row = acc := by
          rw [addRow_eq_some hlook, if_pos hr]
        rw [hstep, foldl_addRow_lookup_some rest acc c v h, hrolls]
        congr 2
        rw [dedupFS, List.filter_cons, if_neg (by simp [hr])]
        rw [filter_both_eq _ _ ?imp2]
        case imp2 =>
          intro x hx
          simp only [decide_eq_true_eq] at hx ⊢
          exact fun e => hx (e ▸ hr)
      · have hstep : addRow acc row = aset row.course (v ++ [row.roll]) acc := by
          rw [addRow_eq_some hlook, if_neg hr]
        have hlook2 : alookup c (aset row.course (v ++ [row.roll]) acc) =
            some (v ++ [row.roll]) := by
          rw [hcc, alookup_aset_self (by rw [h]; rfl)]
        rw [hstep, foldl_addRow_lookup_some rest _ c (v ++ [row.roll]) hlook2, hrolls]
        congr 1
        rw [dedupFS, List.filter_cons, if_pos (by simp [hr])]
        rw [List.append_assoc, List.singleton_append]
        congr 2
        rw [List.filter_filter]
        apply List.filter_congr
        intro x _
        rw [decide_not_mem_append_singleton, Bool.and_comm]
    · have hrolls : rollsOfCourse (row :: rest) c = rollsOfCourse rest c := by
        unfold rollsOfCourse
        rw [List.filter_cons, if_neg (by simp [hcc])]
      rw [foldl_addRow_lookup_some rest (addRow acc row) c v
        (by rw [addRow_lookup_other hcc]; exact h), hrolls]

theorem foldl_addRow_lookup_none :
    ∀ (rows : List Reg) (acc : List (String × List String)) (c : String),
    alookup c acc = none →
    alookup c (rows.foldl addRow acc) =
      if rollsOfCourse rows c = [] then none else some (dedupFS (rollsOfCourse rows c))
  | [], acc, c, h => by simp [rollsOfCourse, h]
  | row :: rest, acc, c, h => by
    rw [List.foldl_cons]
    by_cases hcc : row.course = c
    · have hrolls : rollsOfCourse (row :: rest) c = row.roll :: rollsOfCourse rest c := by
        unfold rollsOfCourse
        rw [List.filter_cons, if_pos (by simp [hcc])]
        rfl
      have hstep : addRow acc row = acc ++ [(row.course, [row.roll])] := by
        exact addRow_eq_none (by rw [hcc]; exact h)
      have hlook2 : alookup c (acc ++ [(row.course, [row.roll])]) = some [row.roll] := by
        rw [alookup_append_none h, alookup_cons_pos hcc]
      rw [hstep, foldl_addRow_lookup_some rest _ c [row.roll] hlook2, hrolls]
      rw [if_neg (by simp)]
      congr 1
      rw [dedupFS, List.singleton_append]
      congr 1
      apply List.filter_congr
      intro x _
      rw [decide_not_mem_singleton]
    · have hrolls : rollsOfCourse (row :: rest) c = rollsOfCourse rest c := by
        unfold rollsOfCourse
        rw [List.filter_cons, if_neg (by simp [hcc])]
      rw [foldl_addRow_lookup_none rest (addRow acc row) c
        (by rw [addRow_lookup_other hcc]; exact h), hrolls]

/-- The keys of `course_to_rolls` are the courses in first-seen order. -/
theorem courseToRolls_keys (rows : List Reg) :
    (courseToRolls rows).map Prod.fst = dedupFS (rows.map Reg.course) := by
  have h := foldl_addRow_keys rows []
  simp only [List.map_nil, List.nil_append] at h
  rw [courseToRolls, h]
  apply List.filter_eq_self.mpr
  intro x _
  simp

/-- The value of `course_to_rolls` at a course: its roll list deduplicated,
first occurrences kept, in first-seen order. -/
theorem courseToRolls_lookup (rows : List Reg) (c : String) :
    alookup c (courseToRolls rows) =
      if rollsOfCourse rows c = [] then none else some (dedupFS (rollsOfCourse rows c)) :=
  foldl_addRow_lookup_none rows [] c rfl

theorem courseToRolls_nodup_keys (rows : List Reg) :
    ((courseToRolls rows).map Prod.fst).Nodup := by
  rw [courseToRolls_keys]
  exact dedupFS_nodup _

/-! ## The `building_rooms` and `room_caps` dict builds -/

theorem bput_eq_some {m : List (String × List Key)} {r : RoomInfo} {ks : List Key}
    (h : alookup r.building m = some ks) :
    bput m r = aset r.building (ks ++ [roomKey r]) m := by
  unfold bput
  rw [h]

theorem bput_eq_none {m : List (String × List Key)} {r : RoomInfo}
    (h : alookup r.building m = none) :
    bput m r = m ++ [(r.building, [roomKey r])] := by
  unfold bput
  rw [h]

theorem bput_keys (m : List (String × List Key)) (r : RoomInfo) :
    (bput m r).map Prod.fst =
      if r.building ∈ m.map Prod.fst then m.map Prod.fst
      else m.map Prod.fst ++ [r.building] := by
  rcases h : alookup r.building m with _ | ks
  · rw [bput_eq_none h, if_neg (alookup_eq_none.mp h)]
    simp
  · rw [bput_eq_some h, if_pos (alookup_isSome.mp (by rw [h]; rfl)), aset_keys]

theorem foldl_bput_lookup_some :
    ∀ (rooms : List RoomInfo) (m : List (String × List Key)) (b : String) (ks : List Key),
    alookup b m = some ks →
    alookup b (rooms.foldl bput m) =
      some (ks ++ (rooms.filter fun r => decide (r.building = b)).map roomKey)
  | [], m, b, ks, h => by simp [h]
  | r0 :: rest, m, b, ks, h => by
    rw [List.foldl_cons]
    by_cases hb : r0.building = b
    · have hstep : bput m r0 = aset r0.building (ks ++ [roomKey r0]) m :=
        bput_eq_some (by rw [hb]; exact h)
      have hlook2 : alookup b (aset r0.building (ks ++ [roomKey r0]) m) =
          some (ks ++ [roomKey r0]) := by
        rw [hb, alookup_aset_self (by rw [h]; rfl)]
      rw [hstep, foldl_bput_lookup_some rest _ b (ks ++ [roomKey r0]) hlook2,
        List.filter_cons, if_pos (by simp [hb]), List.map_cons, List.append_assoc,
        List.singleton_append]
    · have hstep : alookup b (bput m r0) = some ks := by
        rcases h0 : alookup r0.building m with _ | ks0
        · rw [bput_eq_none h0, alookup_append_some h]
        · rw [bput_eq_some h0, alookup_aset_of_ne (fun e => hb e.symm)]
          exact h
      rw [foldl_bput_lookup_some rest _ b ks hstep, List.filter_cons,
        if_neg (by simp [hb])]

theorem foldl_bput_lookup_none :
    ∀ (rooms : List RoomInfo) (m : List (String × List Key)) (b : String),
    alookup b m = none →
    alookup b (rooms.foldl bput m) =
      if (rooms.filter fun r => decide (r.building = b)) = [] then none
      else some ((rooms.filter fun r => decide (r.building = b)).map roomKey)
  | [], m, b, h => by simp [h]
  | r0 :: rest, m, b, h => by
    rw [List.foldl_cons]
    by_cases hb : r0.building = b
    · have hstep : bput m r0 = m ++ [(r0.building, [roomKey r0])] :=
        bput_eq_none (by rw [hb]; exact h)
      have hlook2 : alookup b (m ++ [(r0.building, [roomKey r0])]) = some [roomKey r0] := by
        rw [alookup_append_none h, alookup_cons_pos hb]
      have hfil : (r0 :: rest).filter (fun r => decide (r.building = b)) =
          r0 :: rest.filter (fun r => decide (r.building = b)) := by
        rw [List.filter_cons, if_pos (by simp [hb])]
      rw [hstep, foldl_bput_lookup_some rest _ b [roomKey r0] hlook2, hfil,
        if_neg (by simp), List.map_cons, List.singleton_append]
    · have hstep : alookup b (bput m r0) = none := by
        rcases h0 : alookup r0.building m with _ | ks0
        · rw [bput_eq_none h0, alookup_append_none h, alookup_cons_neg hb]
          rfl
        · rw [bput_eq_some h0, alookup_aset_of_ne (fun e => hb e.symm)]
          exact h
      have hfil : (r0 :: rest).filter (fun r => decide (r.building = b)) =
          rest.filter (fun r => decide (r.building = b)) := by
        rw [List.filter_cons, if_neg (by simp [hb])]
      rw [foldl_bput_lookup_none rest _ b hstep, hfil]

theorem foldl_bput_keys : ∀ (rooms : List RoomInfo) (m : List (String × List Key)),
    (rooms.foldl bput m).map Prod.fst =
      m.map Prod.fst ++
        (dedupFS (rooms.map RoomInfo.building)).filter
          (fun b => decide (b ∉ m.map Prod.fst))
  | [], m => by simp [dedupFS]
  | r0 :: rest, m => by
    rw [List.foldl_cons, foldl_bput_keys rest (bput m r0), bput_keys]
    by_cases hb : r0.building ∈ m.map Prod.fst
    · rw [if_pos hb]
      congr 1
      rw [List.map_cons, dedupFS, List.filter_cons, if_neg (by simp [hb])]
      rw [filter_both_eq _ _ ?imp]
      case imp =>
        intro x hx
        simp only [decide_eq_true_eq] at hx ⊢
        exact fun e => hx (e ▸ hb)
    · rw [if_neg hb]
      rw [List.map_cons, dedupFS, List.filter_cons, if_pos (by simp [hb])]
      rw [List.append_assoc]
      congr 1
      rw [List.singleton_append]
      congr 1
      rw [List.filter_filter]
      apply List.filter_congr
      intro x _
      rw [decide_not_mem_append_singleton, Bool.and_comm]

theorem building_rooms_raw_keys (rooms : List RoomInfo) :
    (building_rooms_raw rooms).map Prod.fst = dedupFS (rooms.map RoomInfo.building) := by
  have h := foldl_bput_keys rooms []
  simp only [List.map_nil, List.nil_append] at h
  rw [building_rooms_raw, h]
  apply List.filter_eq_self.mpr
  intro x _
  simp

theorem building_rooms_raw_lookup (rooms : List RoomInfo) (b : String) :
    alookup b (building_rooms_raw rooms) =
      if (rooms.filter fun r => decide (r.building = b)) = [] then none
      else some ((rooms.filter fun r => decide (r.building = b)).map roomKey) :=
  foldl_bput_lookup_none rooms [] b rfl

theorem building_rooms_keys (rooms : List RoomInfo) :
    (building_rooms rooms).map Prod.fst = dedupFS (rooms.map RoomInfo.building) := by
  rw [building_rooms]
  rw [show ((building_rooms_raw rooms).map fun p => (p.1, isortLe roomLe p.2)).map Prod.fst
      = (building_rooms_raw rooms).map Prod.fst from by
    rw [List.map_map]; rfl]
  exact building_rooms_raw_keys rooms

theorem building_rooms_lookup (rooms : List RoomInfo) (b : String) :
    alookup b (building_rooms rooms) =
      if (rooms.filter fun r => decide (r.building = b)) = [] then none
      else some (isortLe roomLe ((rooms.filter fun r => decide (r.building = b)).map roomKey)) := by
  rw [building_rooms, alookup_map_snd, building_rooms_raw_lookup]
  by_cases h : (rooms.filter fun r => decide (r.building = b)) = []
  · rw [if_pos h, if_pos h]
    rfl
  · rw [if_neg h, if_neg h]
    rfl

theorem foldl_initCaps_eq :
    ∀ (rooms : List RoomInfo) (acc : List (Key × Nat)),
    (∀ r ∈ rooms, roomKey r ∉ acc.map Prod.fst) → (rooms.map roomKey).Nodup →
    rooms.foldl (fun m r => aput (roomKey r) (capN r) m) acc =
      acc ++ rooms.map (fun r => (roomKey r, capN r))
  | [], acc, _, _ => by simp
  | r0 :: rest, acc, hfresh, hnd => by
    rw [List.foldl_cons, aput_of_not_mem (hfresh r0 (List.mem_cons_self r0 rest))]
    rw [List.map_cons, List.nodup_cons] at hnd
    rw [foldl_initCaps_eq rest _ ?fresh hnd.2, List.map_cons, List.append_assoc,
      List.singleton_append]
    case fresh =>
      intro r hr
      simp only [List.map_append, List.map_cons, List.map_nil, List.mem_append,
        List.mem_singleton]
      rintro (h | h)
      · exact hfresh r (List.mem_cons_of_mem r0 hr) h
      · exact hnd.1 (h ▸ List.mem_map.mpr ⟨r, hr, rfl⟩)

/-- Under distinct room keys, the fresh capacity dict is exactly one entry
per room row, in order. -/
theorem initCaps_eq {rooms : List RoomInfo} (hnd : (rooms.map roomKey).Nodup) :
    initCaps rooms = rooms.map fun r => (roomKey r, capN r) := by
  rw [initCaps, foldl_initCaps_eq rooms [] (by simp) hnd, List.nil_append]

theorem initCaps_keys_nodup (rooms : List RoomInfo) :
    ((initCaps rooms).map Prod.fst).Nodup := by
  rw [initCaps]
  generalize hacc : ([] : List (Key × Nat)) = acc
  have h : (acc.map Prod.fst).Nodup := by rw [← hacc]; exact List.nodup_nil
  clear hacc
  induction rooms generalizing acc with
  | nil => exact h
  | cons r rest ih =>
    rw [List.foldl_cons]
    exact ih _ (aput_keys_nodup h)

theorem total_capacity_eq (rooms : List RoomInfo) :
    total_capacity_of rooms = (rooms.map capN).sum := by
  rw [total_capacity_of]
  generalize hn : (0 : Nat) = n
  have : ∀ (l : List RoomInfo) (m : Nat),
      l.foldl (fun t r => t + capN r) m = m + (l.map capN).sum := by
    intro l
    induction l with
    | nil => intro m; simp
    | cons r rest ih =>
      intro m
      rw [List.foldl_cons, ih, List.map_cons, List.sum_cons]
      omega
  rw [this]
  omega

theorem sum_capOf_keys : ∀ {caps : List (Key × Nat)}, (caps.map Prod.fst).Nodup →
    ((caps.map Prod.fst).map (capOf caps)).sum = (caps.map Prod.snd).sum
  | [], _ => rfl
  | (k, v) :: rest, hnd => by
    rw [List.map_cons, List.nodup_cons] at hnd
    rw [List.map_cons, List.map_cons, List.map_cons, List.sum_cons, List.sum_cons]
    have hk : capOf ((k, v) :: rest) k = v := by
      rw [capOf, alookup_cons_pos rfl]
      rfl
    have hrest : (rest.map Prod.fst).map (capOf ((k, v) :: rest)) =
        (rest.map Prod.fst).map (capOf rest) := by
      apply List.map_congr_left
      intro x hx
      have : ¬ k = x := fun e => hnd.1 (e ▸ hx)
      rw [capOf, alookup_cons_neg this]
      rfl
    rw [hk, hrest, sum_capOf_keys hnd.2]

/-! ## The shared room-filling loop -/

theorem aset_capOf_self (caps : List (Key × Nat)) (k : Key) :
    aset k (capOf caps k) caps = caps := by
  rcases h : alookup k caps with _ | v
  · exact aset_of_lookup_none h
  · rw [capOf, h]
    exact aset_of_lookup_some h

theorem capOf_aset_of_ne {k k' : Key} {v : Nat} {caps : List (Key × Nat)} (h : k' ≠ k) :
    capOf (aset k v caps) k' = capOf caps k' := by
  rw [capOf, alookup_aset_of_ne h]
  rfl

theorem capOf_aset_self {k : Key} {v : Nat} {caps : List (Key × Nat)}
    (h : (alookup k caps).isSome) : capOf (aset k v caps) k = v := by
  rw [capOf, alookup_aset_self h]
  rfl

theorem fillRooms_cons_empty {d s c : String} {nm : String → String} {k : Key}
    {ks : List Key} {rem : List String} {caps : List (Key × Nat)} (h : rem = []) :
    fillRooms d s c nm (k :: ks) rem caps = ⟨[], rem, caps⟩ := by
  simp only [fillRooms]
  rw [if_pos h]

theorem fillRooms_cons_zero {d s c : String} {nm : String → String} {k : Key}
    {ks : List Key} {rem : List String} {caps : List (Key × Nat)} (hne : ¬ rem = [])
    (h0 : capOf caps k = 0) :
    fillRooms d s c nm (k :: ks) rem caps = fillRooms d s c nm ks rem caps := by
  simp only [fillRooms]
  rw [if_neg hne, if_pos h0]

theorem fillRooms_cons_pos {d s c : String} {nm : String → String} {k : Key}
    {ks : List Key} {rem : List String} {caps : List (Key × Nat)} (hne : ¬ rem = [])
    (h0 : ¬ capOf caps k = 0) :
    fillRooms d s c nm (k :: ks) rem caps =
      ⟨(rem.take (min (capOf caps k) rem.length)).map
          (fun roll => ⟨d, s, k.1, k.2, c, roll, nm roll⟩)
        ++ (fillRooms d s c nm ks (rem.drop (min (capOf caps k) rem.length))
            (aset k (capOf caps k - min (capOf caps k) rem.length) caps)).records,
       (fillRooms d s c nm ks (rem.drop (min (capOf caps k) rem.length))
            (aset k (capOf caps k - min (capOf caps k) rem.length) caps)).remaining,
       (fillRooms d s c nm ks (rem.drop (min (capOf caps k) rem.length))
            (aset k (capOf caps k - min (capOf caps k) rem.length) caps)).caps⟩ := by
  simp only [fillRooms]
  rw [if_neg hne, if_neg h0]

theorem fillRooms_caps_keys (d s c : String) (nm : String → String) :
    ∀ (keys : List Key) (rem : List String) (caps : List (Key × Nat)),
    ((fillRooms d s c nm keys rem caps).caps).map Prod.fst = caps.map Prod.fst
  | [], _, _ => rfl
  | k :: ks, rem, caps => by
    by_cases hrem : rem = []
    · rw [fillRooms_cons_empty hrem]
    · by_cases h0 : capOf caps k = 0
      · rw [fillRooms_cons_zero hrem h0]
        exact fillRooms_caps_keys d s c nm ks rem caps
      · rw [fillRooms_cons_pos hrem h0]
        exact (fillRooms_caps_keys d s c nm ks _ _).trans (aset_keys _ _ _)

theorem greedyAssign_cons (caps : List (Key × Nat)) (k : Key) (ks : List Key)
    (rolls : List String) :
    greedyAssign caps (k :: ks) rolls =
      ((k, rolls.take (min (capOf caps k) rolls.length)) ::
          (greedyAssign (aset k (capOf caps k - min (capOf caps k) rolls.length) caps) ks
            (rolls.drop (min (capOf caps k) rolls.length))).1,
        (greedyAssign (aset k (capOf caps k - min (capOf caps k) rolls.length) caps) ks
            (rolls.drop (min (capOf caps k) rolls.length))).2.1,
        (greedyAssign (aset k (capOf caps k - min (capOf caps k) rolls.length) caps) ks
            (rolls.drop (min (capOf caps k) rolls.length))).2.2) := by
  simp only [greedyAssign]

theorem greedyAssign_nil_rolls : ∀ (keys : List Key) (caps : List (Key × Nat)),
    greedyAssign caps keys [] = (keys.map fun k => (k, ([] : List String)), [], caps)
  | [], caps => rfl
  | k :: ks, caps => by
    rw [greedyAssign_cons]
    simp only [List.length_nil, Nat.min_zero, List.take_nil, List.drop_nil,
      Nat.sub_zero, aset_capOf_self]
    rw [greedyAssign_nil_rolls ks caps]
    rfl

theorem flatRecs_cons (d s c : String) (nm : String → String) (k : Key)
    (rolls : List String) (rest : List (Key × List String)) :
    flatRecs d s c nm ((k, rolls) :: rest) =
      rolls.map (fun roll => ⟨d, s, k.1, k.2, c, roll, nm roll⟩)
        ++ flatRecs d s c nm rest := by
  rfl

theorem flatRecs_empty_assignments (d s c : String) (nm : String → String) :
    ∀ keys : List Key, flatRecs d s c nm (keys.map fun k => (k, ([] : List String))) = []
  | [] => rfl
  | k :: ks => by
    rw [List.map_cons, flatRecs_cons, List.map_nil, List.nil_append,
      flatRecs_empty_assignments d s c nm ks]

/-- The room loop of the source is exactly the spec's greedy fill rule: the
records it emits, the students left over and the final counters coincide
with the greedy assignment over the same room order. -/
theorem fillRooms_greedy (d s c : String) (nm : String → String) :
    ∀ (keys : List Key) (rem : List String) (caps : List (Key × Nat)),
    fillRooms d s c nm keys rem caps =
      ⟨flatRecs d s c nm (greedyAssign caps keys rem).1,
       (greedyAssign caps keys rem).2.1, (greedyAssign caps keys rem).2.2⟩
  | [], _, _ => rfl
  | k :: ks, rem, caps => by
    by_cases hrem : rem = []
    · subst hrem
      rw [fillRooms_cons_empty rfl, greedyAssign_nil_rolls]
      show (⟨[], [], caps⟩ : FillResult) =
        ⟨flatRecs d s c nm ((k :: ks).map fun k => (k, ([] : List String))), [], caps⟩
      rw [flatRecs_empty_assignments]
    · by_cases h0 : capOf caps k = 0
      · rw [fillRooms_cons_zero hrem h0, fillRooms_greedy d s c nm ks rem caps,
          greedyAssign_cons]
        simp only [h0, Nat.zero_min, List.take_zero, List.drop_zero, Nat.sub_zero,
          aset_capOf_self, flatRecs_cons, List.map_nil, List.nil_append]
        rw [← h0, aset_capOf_self]
      · rw [fillRooms_cons_pos hrem h0, fillRooms_greedy d s c nm ks _ _,
          greedyAssign_cons]
        simp only [flatRecs_cons]

theorem alookup_of_capOf_ne_zero {caps : List (Key × Nat)} {k : Key}
    (h : ¬ capOf caps k = 0) : alookup k caps = some (capOf caps k) := by
  rcases hl : alookup k caps with _ | v
  · rw [capOf, hl] at h
    exact absurd rfl h
  · rw [capOf, hl]
    rfl

/-- Greedy filling takes exactly min(students, total capacity of the listed
rooms): the seated rolls are that prefix of the queue and the leftover is the
matching suffix. -/
theorem fillRooms_take_drop (d s c : String) (nm : String → String) :
    ∀ (keys : List Key) (rem : List String) (caps : List (Key × Nat)),
    keys.Nodup →
    (fillRooms d s c nm keys rem caps).records.map AllocRec.roll
        = rem.take (min rem.length ((keys.map (capOf caps)).sum)) ∧
    (fillRooms d s c nm keys rem caps).remaining
        = rem.drop (min rem.length ((keys.map (capOf caps)).sum))
  | [], rem, caps, _ => by simp [fillRooms]
  | k :: ks, rem, caps, hnd => by
    rw [List.nodup_cons] at hnd
    by_cases hrem : rem = []
    · subst hrem
      rw [fillRooms_cons_empty rfl]
      simp
    · by_cases h0 : capOf caps k = 0
      · rw [fillRooms_cons_zero hrem h0]
        have := fillRooms_take_drop d s c nm ks rem caps hnd.2
        simpa [h0] using this
      · rw [fillRooms_cons_pos hrem h0]
        have hsum : (ks.map (capOf (aset k (capOf caps k - min (capOf caps k) rem.length) caps))).sum
            = (ks.map (capOf caps)).sum := by
          congr 1
          apply List.map_congr_left
          intro x hx
          exact capOf_aset_of_ne (fun e => hnd.1 (e ▸ hx))
        have IH := fillRooms_take_drop d s c nm ks
          (rem.drop (min (capOf caps k) rem.length))
          (aset k (capOf caps k - min (capOf caps k) rem.length) caps) hnd.2
        rw [hsum] at IH
        have harith : min (capOf caps k) rem.length
              + min (rem.drop (min (capOf caps k) rem.length)).length
                  ((ks.map (capOf caps)).sum)
            = min rem.length ((capOf caps k) + (ks.map (capOf caps)).sum) := by
          rw [List.length_drop]
          omega
        constructor
        · simp only [List.map_append, List.map_map]
          rw [show (rem.take (min (capOf caps k) rem.length)).map
              (AllocRec.roll ∘ fun roll => (⟨d, s, k.1, k.2, c, roll, nm roll⟩ : AllocRec))
              = (rem.take (min (capOf caps k) rem.length)).map id from rfl]
          rw [List.map_id, IH.1, List.map_cons, List.sum_cons, ← harith, List.take_add]
        · simp only []
          rw [IH.2, List.drop_drop, List.map_cons, List.sum_cons, ← harith]

/-- Greedy filling never creates capacity: the sum of all counters drops by
exactly the number of records emitted. -/
theorem fillRooms_caps_sum (d s c : String) (nm : String → String) :
    ∀ (keys : List Key) (rem : List String) (caps : List (Key × Nat)),
    ((fillRooms d s c nm keys rem caps).caps.map Prod.snd).sum
        + (fillRooms d s c nm keys rem caps).records.length
      = (caps.map Prod.snd).sum
  | [], rem, caps => by simp [fillRooms]
  | k :: ks, rem, caps => by
    by_cases hrem : rem = []
    · rw [fillRooms_cons_empty hrem]
      simp
    · by_cases h0 : capOf caps k = 0
      · rw [fillRooms_cons_zero hrem h0]
        exact fillRooms_caps_sum d s c nm ks rem caps
      · rw [fillRooms_cons_pos hrem h0]
        have hset := aset_snd_sum (capOf caps k - min (capOf caps k) rem.length)
          (alookup_of_capOf_ne_zero h0)
        have IH := fillRooms_caps_sum d s c nm ks
          (rem.drop (min (capOf caps k) rem.length))
          (aset k (capOf caps k - min (capOf caps k) rem.length) caps)
        simp only [List.length_append, List.length_map, List.length_take]
        omega

/-- Remaining capacities only ever decrease through the room loop. -/
theorem fillRooms_capOf_le (d s c : String) (nm : String → String) :
    ∀ (keys : List Key) (rem : List String) (caps : List (Key × Nat)) (k0 : Key),
    capOf (fillRooms d s c nm keys rem caps).caps k0 ≤ capOf caps k0
  | [], rem, caps, k0 => Nat.le_refl _
  | k :: ks, rem, caps, k0 => by
    by_cases hrem : rem = []
    · rw [fillRooms_cons_empty hrem]
    · by_cases h0 : capOf caps k = 0
      · rw [fillRooms_cons_zero hrem h0]
        exact fillRooms_capOf_le d s c nm ks rem caps k0
      · rw [fillRooms_cons_pos hrem h0]
        set t := min (capOf caps k) rem.length with ht
        refine Nat.le_trans (fillRooms_capOf_le d s c nm ks (rem.drop t) _ k0) ?_
        by_cases hk : k0 = k
        · subst hk
          rw [capOf_aset_self (by rw [alookup_of_capOf_ne_zero h0]; rfl)]
          omega
        · rw [capOf_aset_of_ne hk]

/-- A room whose counter is 0 receives no record and stays at 0. -/
theorem fillRooms_zero_skip (d s c : String) (nm : String → String) :
    ∀ (keys : List Key) (rem : List String) (caps : List (Key × Nat)) (k0 : Key),
    capOf caps k0 = 0 →
    (∀ rec ∈ (fillRooms d s c nm keys rem caps).records, (rec.building, rec.room) ≠ k0) ∧
    capOf (fillRooms d s c nm keys rem caps).caps k0 = 0
  | [], rem, caps, k0, hz => by
    refine ⟨fun rec hrec => absurd hrec ?_, hz⟩
    simp [fillRooms]
  | k :: ks, rem, caps, k0, hz => by
    by_cases hrem : rem = []
    · rw [fillRooms_cons_empty hrem]
      exact ⟨fun rec hrec => absurd hrec (by simp), hz⟩
    · by_cases h0 : capOf caps k = 0
      · rw [fillRooms_cons_zero hrem h0]
        exact fillRooms_zero_skip d s c nm ks rem caps k0 hz
      · rw [fillRooms_cons_pos hrem h0]
        have hkne : k0 ≠ k := fun e => h0 (e ▸ hz)
        set t := min (capOf caps k) rem.length with ht
        have hz' : capOf (aset k (capOf caps k - t) caps) k0 = 0 := by
          rw [capOf_aset_of_ne hkne]
          exact hz
        have IH := fillRooms_zero_skip d s c nm ks (rem.drop t) _ k0 hz'
        refine ⟨?_, IH.2⟩
        intro rec hrec
        rcases List.mem_append.mp hrec with hmem | hmem
        · rcases List.mem_map.mp hmem with ⟨roll, _, rfl⟩
          show (k.1, k.2) ≠ k0
          intro e
          exact hkne (by rw [← e])
        · exact IH.1 rec hmem

/-- Every record the room loop emits carries the loop's date, slot and
course, a room key from the list, and a roll from the queue. -/
theorem fillRooms_fields (d s c : String) (nm : String → String) :
    ∀ (keys : List Key) (rem : List String) (caps : List (Key × Nat)),
    ∀ rec ∈ (fillRooms d s c nm keys rem caps).records,
      rec.date = d ∧ rec.slot = s ∧ rec.course = c ∧
        (rec.building, rec.room) ∈ keys ∧ rec.roll ∈ rem
  | [], rem, caps, rec, hrec => absurd hrec (by simp [fillRooms])
  | k :: ks, rem, caps, rec, hrec => by
    by_cases hrem : rem = []
    · rw [fillRooms_cons_empty hrem] at hrec
      exact absurd hrec (by simp)
    · by_cases h0 : capOf caps k = 0
      · rw [fillRooms_cons_zero hrem h0] at hrec
        have := fillRooms_fields d s c nm ks rem caps rec hrec
        exact ⟨this.1, this.2.1, this.2.2.1, List.mem_cons_of_mem k this.2.2.2.1,
          this.2.2.2.2⟩
      · rw [fillRooms_cons_pos hrem h0] at hrec
        set t := min (capOf caps k) rem.length with ht
        rcases List.mem_append.mp hrec with hmem | hmem
        · rcases List.mem_map.mp hmem with ⟨roll, hroll, rfl⟩
          refine ⟨rfl, rfl, rfl, ?_, List.take_subset t rem hroll⟩
          show (k.1, k.2) ∈ k :: ks
          exact List.mem_cons.mpr (Or.inl rfl)
        · have := fillRooms_fields d s c nm ks (rem.drop t) _ rec hmem
          exact ⟨this.1, this.2.1, this.2.2.1, List.mem_cons_of_mem k this.2.2.2.1,
            List.drop_subset t rem this.2.2.2.2⟩

/-! ## The per-course placement -/

theorem allocCourse_eq_spread {d s : String} {nm : String → String}
    {bRooms : List (String × List Key)} {course : String} {rolls : List String}
    {caps : List (Key × Nat)} (h : can_hold_of bRooms caps rolls.length = []) :
    allocCourse d s nm bRooms course rolls caps =
      ⟨(fillRooms d s course nm (isortLe keyLe (caps.map Prod.fst)) rolls caps).records,
       (fillRooms d s course nm (isortLe keyLe (caps.map Prod.fst)) rolls caps).caps,
       (fillRooms d s course nm (isortLe keyLe (caps.map Prod.fst)) rolls caps).remaining⟩ := by
  unfold allocCourse
  rw [h]

theorem allocCourse_eq_single {d s : String} {nm : String → String}
    {bRooms : List (String × List Key)} {course : String} {rolls : List String}
    {caps : List (Key × Nat)} (b0 : String) (bs : List String)
    (h : can_hold_of bRooms caps rolls.length = b0 :: bs) :
    allocCourse d s nm bRooms course rolls caps =
      ⟨(fillRooms d s course nm
          ((alookup ((isortLe
              (fun a b => decide ((alookup a (building_cap_of bRooms caps)).getD 0
                ≤ (alookup b (building_cap_of bRooms caps)).getD 0)) (b0 :: bs)).headD b0)
            bRooms).getD [])
          rolls caps).records,
       (fillRooms d s course nm
          ((alookup ((isortLe
              (fun a b => decide ((alookup a (building_cap_of bRooms caps)).getD 0
                ≤ (alookup b (building_cap_of bRooms caps)).getD 0)) (b0 :: bs)).headD b0)
            bRooms).getD [])
          rolls caps).caps,
       (fillRooms d s course nm
          ((alookup ((isortLe
              (fun a b => decide ((alookup a (building_cap_of bRooms caps)).getD 0
                ≤ (alookup b (building_cap_of bRooms caps)).getD 0)) (b0 :: bs)).headD b0)
            bRooms).getD [])
          rolls caps).remaining⟩ := by
  unfold allocCourse
  rw [h]

theorem bcLe_total (m : List (String × Nat)) : ∀ a b : String,
    decide ((alookup a m).getD 0 ≤ (alookup b m).getD 0) = true ∨
      decide ((alookup b m).getD 0 ≤ (alookup a m).getD 0) = true := by
  intro a b
  rcases Nat.le_total ((alookup a m).getD 0) ((alookup b m).getD 0) with h | h
  · exact Or.inl (by simp [h])
  · exact Or.inr (by simp [h])

theorem bcLe_trans (m : List (String × Nat)) : ∀ a b c : String,
    decide ((alookup a m).getD 0 ≤ (alookup b m).getD 0) = true →
    decide ((alookup b m).getD 0 ≤ (alookup c m).getD 0) = true →
    decide ((alookup a m).getD 0 ≤ (alookup c m).getD 0) = true := by
  intro a b c hab hbc
  simp only [decide_eq_true_eq] at hab hbc ⊢
  exact le_trans hab hbc

/-- The building Python's `sorted(can_hold, key=...)[0]` picks is a member
of `can_hold` of minimal remaining capacity. -/
theorem chosen_mem_min (bRooms : List (String × List Key)) (caps : List (Key × Nat))
    (n : Nat) (b0 : String) (bs : List String)
    (h : can_hold_of bRooms caps n = b0 :: bs) :
    ((isortLe (fun a b => decide ((alookup a (building_cap_of bRooms caps)).getD 0
        ≤ (alookup b (building_cap_of bRooms caps)).getD 0)) (b0 :: bs)).headD b0)
        ∈ can_hold_of bRooms caps n ∧
      ∀ b ∈ can_hold_of bRooms caps n,
        (alookup ((isortLe (fun a b => decide ((alookup a (building_cap_of bRooms caps)).getD 0
            ≤ (alookup b (building_cap_of bRooms caps)).getD 0)) (b0 :: bs)).headD b0)
          (building_cap_of bRooms caps)).getD 0
          ≤ (alookup b (building_cap_of bRooms caps)).getD 0 := by
  have hmin := isortLe_headD_min (bcLe_total (building_cap_of bRooms caps))
    (bcLe_trans (building_cap_of bRooms caps)) (l := b0 :: bs) (by simp) b0
  rw [h]
  refine ⟨hmin.1, fun b hb => ?_⟩
  have := hmin.2 b hb
  simpa using this

/-- A member of `can_hold` names a building of the dict whose rooms' total
current capacity is at least `n`. -/
theorem mem_can_hold {bRooms : List (String × List Key)} {caps : List (Key × Nat)}
    {n : Nat} {b : String} (hnd : (bRooms.map Prod.fst).Nodup)
    (hmem : b ∈ can_hold_of bRooms caps n) :
    ∃ ks, alookup b bRooms = some ks ∧ n ≤ (ks.map (capOf caps)).sum := by
  unfold can_hold_of building_cap_of at hmem
  rcases List.mem_map.mp hmem with ⟨bc, hbc, rfl⟩
  rcases List.mem_filter.mp hbc with ⟨hbc1, hbc2⟩
  rcases List.mem_map.mp hbc1 with ⟨p, hp, rfl⟩
  refine ⟨p.2, ?_, by simpa using hbc2⟩
  exact alookup_of_mem_nodup hnd (by simpa using hp)

/-- An association list with distinct keys is determined by its key list and
its lookup function. -/
theorem assoc_ext {α β : Type} [DecidableEq α] :
    ∀ {l : List (α × β)} (g : α → β), (l.map Prod.fst).Nodup →
    (∀ k ∈ l.map Prod.fst, alookup k l = some (g k)) →
    l = (l.map Prod.fst).map fun k => (k, g k)
  | [], _, _, _ => rfl
  | (a, b) :: rest, g, hnd, hg => by
    rw [List.map_cons, List.nodup_cons] at hnd
    have hab : b = g a := by
      have := hg a (by simp)
      rw [alookup_cons_pos rfl] at this
      exact Option.some.inj this
    rw [List.map_cons, List.map_cons, ← hab]
    congr 1
    refine assoc_ext g hnd.2 fun k hk => ?_
    have hne : ¬ a = k := fun e => hnd.1 (e ▸ hk)
    have := hg k (List.mem_cons_of_mem _ hk)
    rw [alookup_cons_neg hne] at this
    exact this

theorem map_fst_filter_snd {α : Type} (g : α → Nat) (P : Nat → Bool) :
    ∀ ks : List α,
    ((ks.map fun k => (k, g k)).filter fun bc => P bc.2).map Prod.fst
      = ks.filter fun k => P (g k)
  | [] => rfl
  | k :: ks => by
    rw [List.map_cons, List.filter_cons, List.filter_cons]
    by_cases h : P (g k) = true
    · rw [if_pos h, if_pos h, List.map_cons, map_fst_filter_snd g P ks]
    · rw [if_neg h, if_neg h, map_fst_filter_snd g P ks]

/-- A building appears in the slot's building list exactly when some room
row carries it. -/
theorem mem_specBuildings {rooms : List RoomInfo} {b : String} :
    b ∈ specBuildings rooms ↔
      ¬ (rooms.filter fun r => decide (r.building = b)) = [] := by
  unfold specBuildings
  rw [mem_dedupFS]
  constructor
  · intro h hfil
    rcases List.mem_map.mp h with ⟨r, hr, rfl⟩
    have : r ∈ rooms.filter fun r' => decide (r'.building = r.building) :=
      List.mem_filter.mpr ⟨hr, by simp⟩
    rw [hfil] at this
    cases this
  · intro h
    rcases List.exists_mem_of_ne_nil _ h with ⟨r, hr⟩
    rcases List.mem_filter.mp hr with ⟨hr1, hr2⟩
    simp only [decide_eq_true_eq] at hr2
    exact List.mem_map.mpr ⟨r, hr1, hr2⟩

/-- The `building_rooms` dict is, entry by entry, the spec's per-building
sorted room list over the discovery-ordered building list. -/
theorem building_rooms_eq_spec (rooms : List RoomInfo) :
    building_rooms rooms = (specBuildings rooms).map fun b => (b, roomsAsc rooms b) := by
  have hnd : ((building_rooms rooms).map Prod.fst).Nodup := by
    rw [building_rooms_keys]
    exact dedupFS_nodup _
  have hext := assoc_ext (fun b => roomsAsc rooms b) hnd ?lookups
  · rw [hext, building_rooms_keys]
    rfl
  case lookups =>
    intro b hb
    rw [building_rooms_keys] at hb
    have hfil := mem_specBuildings.mp (by rw [specBuildings]; exact hb)
    rw [building_rooms_lookup, if_neg hfil]
    rfl

/-- The building capacities the engine computes coincide with the spec's:
`can_hold` is exactly the spec's set of sufficient buildings. -/
theorem can_hold_eq_spec (rooms : List RoomInfo) (caps : List (Key × Nat)) (n : Nat) :
    can_hold_of (building_rooms rooms) caps n =
      (specBuildings rooms).filter fun b => decide (n ≤ specBuildingCap caps rooms b) := by
  unfold can_hold_of building_cap_of
  rw [building_rooms_eq_spec, List.map_map]
  have hcomp : ((fun p : String × List Key => (p.1, ((p.2.map (capOf caps)).sum)))
      ∘ fun b => (b, roomsAsc rooms b))
      = fun b => (b, (((roomsAsc rooms b).map (capOf caps)).sum)) := rfl
  rw [hcomp]
  have hsum : ∀ b, ((roomsAsc rooms b).map (capOf caps)).sum = specBuildingCap caps rooms b := by
    intro b
    unfold roomsAsc specBuildingCap
    exact ((isortLe_perm roomLe _).map (capOf caps)).sum_eq
  have : (fun b => (b, (((roomsAsc rooms b).map (capOf caps)).sum)))
      = fun b => (b, specBuildingCap caps rooms b) := by
    funext b
    rw [hsum b]
  rw [this]
  exact map_fst_filter_snd (fun b => specBuildingCap caps rooms b)
    (fun m => decide (n ≤ m)) (specBuildings rooms)

theorem allocCourse_caps_keys (d s : String) (nm : String → String)
    (bRooms : List (String × List Key)) (course : String) (rolls : List String)
    (caps : List (Key × Nat)) :
    ((allocCourse d s nm bRooms course rolls caps).caps).map Prod.fst = caps.map Prod.fst := by
  rcases h : can_hold_of bRooms caps rolls.length with _ | ⟨b0, bs⟩
  · rw [allocCourse_eq_spread h]
    exact fillRooms_caps_keys d s course nm _ rolls caps
  · rw [allocCourse_eq_single b0 bs h]
    exact fillRooms_caps_keys d s course nm _ rolls caps

theorem allocCourse_capOf_le (d s : String) (nm : String → String)
    (bRooms : List (String × List Key)) (course : String) (rolls : List String)
    (caps : List (Key × Nat)) (k0 : Key) :
    capOf (allocCourse d s nm bRooms course rolls caps).caps k0 ≤ capOf caps k0 := by
  rcases h : can_hold_of bRooms caps rolls.length with _ | ⟨b0, bs⟩
  · rw [allocCourse_eq_spread h]
    exact fillRooms_capOf_le d s course nm _ rolls caps k0
  · rw [allocCourse_eq_single b0 bs h]
    exact fillRooms_capOf_le d s course nm _ rolls caps k0

theorem allocCourse_zero_skip (d s : String) (nm : String → String)
    (bRooms : List (String × List Key)) (course : String) (rolls : List String)
    (caps : List (Key × Nat)) (k0 : Key) (hz : capOf caps k0 = 0) :
    (∀ rec ∈ (allocCourse d s nm bRooms course rolls caps).records,
      (rec.building, rec.room) ≠ k0) ∧
    capOf (allocCourse d s nm bRooms course rolls caps).caps k0 = 0 := by
  rcases h : can_hold_of bRooms caps rolls.length with _ | ⟨b0, bs⟩
  · rw [allocCourse_eq_spread h]
    exact fillRooms_zero_skip d s course nm _ rolls caps k0 hz
  · rw [allocCourse_eq_single b0 bs h]
    exact fillRooms_zero_skip d s course nm _ rolls caps k0 hz

theorem allocCourse_fields (d s : String) (nm : String → String)
    (bRooms : List (String × List Key)) (course : String) (rolls : List String)
    (caps : List (Key × Nat)) :
    ∀ rec ∈ (allocCourse d s nm bRooms course rolls caps).records,
      rec.date = d ∧ rec.slot = s ∧ rec.course = course ∧ rec.roll ∈ rolls := by
  intro rec hrec
  rcases h : can_hold_of bRooms caps rolls.length with _ | ⟨b0, bs⟩
  · rw [allocCourse_eq_spread h] at hrec
    have := fillRooms_fields d s course nm _ rolls caps rec hrec
    exact ⟨this.1, this.2.1, this.2.2.1, this.2.2.2.2⟩
  · rw [allocCourse_eq_single b0 bs h] at hrec
    have := fillRooms_fields d s course nm _ rolls caps rec hrec
    exact ⟨this.1, this.2.1, this.2.2.1, this.2.2.2.2⟩

/-- When the course fits in the slot's remaining seats, the per-course
placement seats it fully: no student is left, the records enumerate the
course's rolls in order, and total remaining capacity drops by the course
size. -/
theorem allocCourse_full (d s : String) (nm : String → String) (rooms : List RoomInfo)
    (course : String) (rolls : List String) (caps : List (Key × Nat))
    (hnd : (rooms.map roomKey).Nodup) (hk : caps.map Prod.fst = rooms.map roomKey)
    (hcap : rolls.length ≤ (caps.map Prod.snd).sum) :
    (allocCourse d s nm (building_rooms rooms) course rolls caps).remaining = [] ∧
    (allocCourse d s nm (building_rooms rooms) course rolls caps).records.map AllocRec.roll
      = rolls ∧
    ((allocCourse d s nm (building_rooms rooms) course rolls caps).caps.map Prod.snd).sum
        + rolls.length
      = (caps.map Prod.snd).sum := by
  have hcnd : (caps.map Prod.fst).Nodup := by rw [hk]; exact hnd
  rcases h : can_hold_of (building_rooms rooms) caps rolls.length with _ | ⟨b0, bs⟩
  · -- spread path: all rooms together have enough seats
    rw [allocCourse_eq_spread h]
    have knd : (isortLe keyLe (caps.map Prod.fst)).Nodup := isortLe_nodup hcnd
    have hS : (((isortLe keyLe (caps.map Prod.fst))).map (capOf caps)).sum
        = (caps.map Prod.snd).sum := by
      rw [((isortLe_perm keyLe (caps.map Prod.fst)).map (capOf caps)).sum_eq]
      exact sum_capOf_keys hcnd
    have ftd := fillRooms_take_drop d s course nm _ rolls caps knd
    have hmin : min rolls.length (((isortLe keyLe (caps.map Prod.fst))).map (capOf caps)).sum
        = rolls.length := by
      rw [hS]
      omega
    have hrecs : (fillRooms d s course nm (isortLe keyLe (caps.map Prod.fst)) rolls caps).records.map AllocRec.roll = rolls := by
      rw [ftd.1, hmin, List.take_length]
    refine ⟨?_, hrecs, ?_⟩
    · rw [ftd.2, hmin, List.drop_length]
    · show ((fillRooms d s course nm (isortLe keyLe (caps.map Prod.fst)) rolls caps).caps.map
          Prod.snd).sum + rolls.length = (caps.map Prod.snd).sum
      have csum := fillRooms_caps_sum d s course nm (isortLe keyLe (caps.map Prod.fst)) rolls caps
      have hlen : (fillRooms d s course nm (isortLe keyLe (caps.map Prod.fst)) rolls caps).records.length = rolls.length := by
        have hh := congrArg List.length hrecs
        rwa [List.length_map] at hh
      omega
  · -- single-building path: the chosen building alone has enough seats
    have hbnd : ((building_rooms rooms).map Prod.fst).Nodup := by
      rw [building_rooms_keys]
      exact dedupFS_nodup _
    have hchosen := (chosen_mem_min (building_rooms rooms) caps rolls.length b0 bs h).1
    rcases mem_can_hold hbnd hchosen with ⟨ks, hks, hksum⟩
    rw [allocCourse_eq_single b0 bs h]
    rw [hks]
    have hks2 := hks
    rw [building_rooms_lookup] at hks2
    by_cases hfil : (rooms.filter fun r => decide (r.building
        = ((isortLe (fun a b => decide ((alookup a (building_cap_of (building_rooms rooms) caps)).getD 0
            ≤ (alookup b (building_cap_of (building_rooms rooms) caps)).getD 0)) (b0 :: bs)).headD b0))) = []
    · rw [if_pos hfil] at hks2
      cases hks2
    · rw [if_neg hfil] at hks2
      have hksval := Option.some.inj hks2
      have knd : ks.Nodup := by
        rw [← hksval]
        refine isortLe_nodup (List.Nodup.sublist ?_ hnd)
        exact ((List.filter_sublist rooms).map roomKey)
      have ftd := fillRooms_take_drop d s course nm ks rolls caps knd
      have hmin : min rolls.length ((ks.map (capOf caps)).sum) = rolls.length := by
        omega
      have hrecs : ((fillRooms d s course nm ks rolls caps).records).map AllocRec.roll = rolls := by
        rw [ftd.1, hmin, List.take_length]
      refine ⟨?_, hrecs, ?_⟩
      · show (fillRooms d s course nm ks rolls caps).remaining = []
        rw [ftd.2, hmin, List.drop_length]
      · show ((fillRooms d s course nm ks rolls caps).caps.map Prod.snd).sum + rolls.length
          = (caps.map Prod.snd).sum
        have csum := fillRooms_caps_sum d s course nm ks rolls caps
        have hlen : (fillRooms d s course nm ks rolls caps).records.length = rolls.length := by
          have hh := congrArg List.length hrecs
          rwa [List.length_map] at hh
        omega

/-! ## The per-course loop -/

theorem allocCourses_nil (d s : String) (nm : String → String)
    (bRooms : List (String × List Key)) (caps : List (Key × Nat)) :
    allocCourses d s nm bRooms [] caps = ⟨[], caps, []⟩ := rfl

theorem allocCourses_cons (d s : String) (nm : String → String)
    (bRooms : List (String × List Key)) (c : String × List String)
    (rest : List (String × List String)) (caps : List (Key × Nat)) :
    allocCourses d s nm bRooms (c :: rest) caps =
      ⟨(allocCourse d s nm bRooms c.1 c.2 caps).records
          ++ (allocCourses d s nm bRooms rest (allocCourse d s nm bRooms c.1 c.2 caps).caps).records,
        (allocCourses d s nm bRooms rest (allocCourse d s nm bRooms c.1 c.2 caps).caps).caps,
        (if (allocCourse d s nm bRooms c.1 c.2 caps).remaining = [] then []
          else [(c.1, (allocCourse d s nm bRooms c.1 c.2 caps).remaining)])
          ++ (allocCourses d s nm bRooms rest (allocCourse d s nm bRooms c.1 c.2 caps).caps).unseated⟩ := by
  simp only [allocCourses]

theorem allocCourses_caps_keys (d s : String) (nm : String → String)
    (bRooms : List (String × List Key)) :
    ∀ (courses : List (String × List String)) (caps : List (Key × Nat)),
    ((allocCourses d s nm bRooms courses caps).caps).map Prod.fst = caps.map Prod.fst
  | [], _ => rfl
  | c :: rest, caps => by
    rw [allocCourses_cons]
    exact (allocCourses_caps_keys d s nm bRooms rest _).trans
      (allocCourse_caps_keys d s nm bRooms c.1 c.2 caps)

theorem allocCourses_capOf_le (d s : String) (nm : String → String)
    (bRooms : List (String × List Key)) :
    ∀ (courses : List (String × List String)) (caps : List (Key × Nat)) (k0 : Key),
    capOf (allocCourses d s nm bRooms courses caps).caps k0 ≤ capOf caps k0
  | [], _, _ => Nat.le_refl _
  | c :: rest, caps, k0 => by
    rw [allocCourses_cons]
    exact Nat.le_trans (allocCourses_capOf_le d s nm bRooms rest _ k0)
      (allocCourse_capOf_le d s nm bRooms c.1 c.2 caps k0)

theorem allocCourses_zero_skip (d s : String) (nm : String → String)
    (bRooms : List (String × List Key)) :
    ∀ (courses : List (String × List String)) (caps : List (Key × Nat)) (k0 : Key),
    capOf caps k0 = 0 →
    (∀ rec ∈ (allocCourses d s nm bRooms courses caps).records,
      (rec.building, rec.room) ≠ k0) ∧
    capOf (allocCourses d s nm bRooms courses caps).caps k0 = 0
  | [], caps, k0, hz => ⟨fun rec hrec => absurd hrec (by simp [allocCourses_nil]), hz⟩
  | c :: rest, caps, k0, hz => by
    rw [allocCourses_cons]
    have h1 := allocCourse_zero_skip d s nm bRooms c.1 c.2 caps k0 hz
    have h2 := allocCourses_zero_skip d s nm bRooms rest
      (allocCourse d s nm bRooms c.1 c.2 caps).caps k0 h1.2
    refine ⟨?_, h2.2⟩
    intro rec hrec
    rcases List.mem_append.mp hrec with hmem | hmem
    · exact h1.1 rec hmem
    · exact h2.1 rec hmem

theorem allocCourses_fields (d s : String) (nm : String → String)
    (bRooms : List (String × List Key)) :
    ∀ (courses : List (String × List String)) (caps : List (Key × Nat)),
    ∀ rec ∈ (allocCourses d s nm bRooms courses caps).records,
      rec.date = d ∧ rec.slot = s ∧ ∃ p ∈ courses, rec.course = p.1 ∧ rec.roll ∈ p.2
  | [], caps, rec, hrec => absurd hrec (by simp [allocCourses_nil])
  | c :: rest, caps, rec, hrec => by
    rw [allocCourses_cons] at hrec
    rcases List.mem_append.mp hrec with hmem | hmem
    · have := allocCourse_fields d s nm bRooms c.1 c.2 caps rec hmem
      exact ⟨this.1, this.2.1, c, List.mem_cons_self c rest, this.2.2.1, this.2.2.2⟩
    · have := allocCourses_fields d s nm bRooms rest _ rec hmem
      rcases this.2.2 with ⟨p, hp, he⟩
      exact ⟨this.1, this.2.1, p, List.mem_cons_of_mem c hp, he⟩

/-- When slot-total demand fits slot-total supply, every course is seated in
full: no unseated leftovers, capacity drops by exactly the total demand, and
for each course the records for that course enumerate its roll list. -/
theorem allocCourses_full (d s : String) (nm : String → String) (rooms : List RoomInfo) :
    ∀ (courses : List (String × List String)) (caps : List (Key × Nat)),
    (rooms.map roomKey).Nodup →
    caps.map Prod.fst = rooms.map roomKey →
    (courses.map fun p => p.2.length).sum ≤ (caps.map Prod.snd).sum →
    (courses.map Prod.fst).Nodup →
    (allocCourses d s nm (building_rooms rooms) courses caps).unseated = [] ∧
    ((allocCourses d s nm (building_rooms rooms) courses caps).caps.map Prod.snd).sum
        + (courses.map fun p => p.2.length).sum
      = (caps.map Prod.snd).sum ∧
    ∀ p ∈ courses,
      ((allocCourses d s nm (building_rooms rooms) courses caps).records.filter
        fun rec => decide (rec.course = p.1)).map AllocRec.roll = p.2
  | [], caps, _, _, _, _ => by
    refine ⟨rfl, by rw [allocCourses_nil]; simp, fun p hp => absurd hp (by simp)⟩
  | c :: rest, caps, hnd, hk, hcap, hcnd => by
    rw [List.map_cons, List.sum_cons] at hcap
    have hfull := allocCourse_full d s nm rooms c.1 c.2 caps hnd hk (by omega)
    have hk2 : (allocCourse d s nm (building_rooms rooms) c.1 c.2 caps).caps.map Prod.fst
        = rooms.map roomKey := by
      rw [allocCourse_caps_keys]
      exact hk
    have hcap2 : (rest.map fun p => p.2.length).sum
        ≤ ((allocCourse d s nm (building_rooms rooms) c.1 c.2 caps).caps.map Prod.snd).sum := by
      omega
    rw [List.map_cons, List.nodup_cons] at hcnd
    have IH := allocCourses_full d s nm rooms rest
      (allocCourse d s nm (building_rooms rooms) c.1 c.2 caps).caps hnd hk2 hcap2 hcnd.2
    rw [allocCourses_cons]
    refine ⟨?_, ?_, ?_⟩
    · rw [hfull.1, if_pos rfl, List.nil_append]
      exact IH.1
    · show ((allocCourses d s nm (building_rooms rooms) rest
            (allocCourse d s nm (building_rooms rooms) c.1 c.2 caps).caps).caps.map
          Prod.snd).sum + ((c :: rest).map fun p => p.2.length).sum
        = (caps.map Prod.snd).sum
      rw [List.map_cons, List.sum_cons]
      have hIH := IH.2.1
      omega
    · intro p hp
      rcases List.mem_cons.mp hp with rfl | hp'
      · rw [List.filter_append]
        have hall : (allocCourse d s nm (building_rooms rooms) p.1 p.2 caps).records.filter
            (fun rec => decide (rec.course = p.1))
            = (allocCourse d s nm (building_rooms rooms) p.1 p.2 caps).records := by
          apply List.filter_eq_self.mpr
          intro rec hrec
          have := allocCourse_fields d s nm _ p.1 p.2 caps rec hrec
          simp [this.2.2.1]
        have hnone : (allocCourses d s nm (building_rooms rooms) rest
              (allocCourse d s nm (building_rooms rooms) p.1 p.2 caps).caps).records.filter
            (fun rec => decide (rec.course = p.1)) = [] := by
          apply List.filter_eq_nil_iff.mpr
          intro rec hrec
          have := allocCourses_fields d s nm _ rest _ rec hrec
          rcases this.2.2 with ⟨q, hq, he, _⟩
          simp only [decide_eq_true_eq]
          intro e
          have hqp : q.1 = p.1 := he ▸ e
          exact hcnd.1 (hqp ▸ List.mem_map.mpr ⟨q, hq, rfl⟩)
        rw [hall, hnone, List.append_nil]
        exact hfull.2.1
      · rw [List.filter_append]
        have hnone : (allocCourse d s nm (building_rooms rooms) c.1 c.2 caps).records.filter
            (fun rec => decide (rec.course = p.1)) = [] := by
          apply List.filter_eq_nil_iff.mpr
          intro rec hrec
          have := allocCourse_fields d s nm _ c.1 c.2 caps rec hrec
          simp only [decide_eq_true_eq]
          rw [this.2.2.1]
          intro e
          exact hcnd.1 (e ▸ List.mem_map.mpr ⟨p, hp', rfl⟩)
        rw [hnone, List.nil_append]
        exact IH.2.2 p hp'

/-! ## The slot allocator -/

theorem allocate_for_slot_fail {d s : String} {slot_df : List Reg} {rooms : List RoomInfo}
    {nm : String → String}
    (h : total_capacity_of rooms < total_students_of (courseToRolls slot_df)) :
    allocate_for_slot d s slot_df rooms nm =
      ⟨[], initCaps rooms,
        [Signal.capacityError d s (total_students_of (courseToRolls slot_df))
          (total_capacity_of rooms)], []⟩ := by
  unfold allocate_for_slot
  rw [if_pos h]

theorem allocate_for_slot_ok {d s : String} {slot_df : List Reg} {rooms : List RoomInfo}
    {nm : String → String}
    (h : ¬ total_capacity_of rooms < total_students_of (courseToRolls slot_df)) :
    allocate_for_slot d s slot_df rooms nm =
      ⟨(allocCourses d s nm (building_rooms rooms) (sortCoursesDesc (courseToRolls slot_df))
          (initCaps rooms)).records,
        (allocCourses d s nm (building_rooms rooms) (sortCoursesDesc (courseToRolls slot_df))
          (initCaps rooms)).caps,
        (allocCourses d s nm (building_rooms rooms) (sortCoursesDesc (courseToRolls slot_df))
          (initCaps rooms)).unseated.map (fun p => Signal.unseated d s p.1 p.2.length),
        (allocCourses d s nm (building_rooms rooms) (sortCoursesDesc (courseToRolls slot_df))
          (initCaps rooms)).unseated⟩ := by
  unfold allocate_for_slot
  rw [if_neg h]

theorem initCaps_fst {rooms : List RoomInfo} (hnd : (rooms.map roomKey).Nodup) :
    (initCaps rooms).map Prod.fst = rooms.map roomKey := by
  rw [initCaps_eq hnd, List.map_map]
  rfl

theorem initCaps_snd_sum {rooms : List RoomInfo} (hnd : (rooms.map roomKey).Nodup) :
    ((initCaps rooms).map Prod.snd).sum = total_capacity_of rooms := by
  rw [initCaps_eq hnd, List.map_map, total_capacity_eq]
  rfl

theorem sortCoursesDesc_sizes_sum (l : List (String × List String)) :
    ((sortCoursesDesc l).map fun p => p.2.length).sum = total_students_of l := by
  rw [total_students_of]
  exact ((isortLe_perm _ l).map fun p => p.2.length).sum_eq

theorem sortCoursesDesc_keys_nodup {l : List (String × List String)}
    (h : (l.map Prod.fst).Nodup) : ((sortCoursesDesc l).map Prod.fst).Nodup :=
  (((isortLe_perm _ l).map Prod.fst).nodup_iff).mpr h

/-- When the pre-check passes and room keys are distinct, the slot allocator
seats every course completely: no unseated leftovers, no signals, and per
course the seated rolls in order are exactly its deduplicated roll list. -/
theorem allocate_for_slot_success (d s : String) (slot_df : List Reg)
    (rooms : List RoomInfo) (nm : String → String)
    (hnd : (rooms.map roomKey).Nodup)
    (hcap : total_students_of (courseToRolls slot_df) ≤ total_capacity_of rooms) :
    (allocate_for_slot d s slot_df rooms nm).unseated = [] ∧
    (allocate_for_slot d s slot_df rooms nm).signals = [] ∧
    ∀ p ∈ courseToRolls slot_df,
      ((allocate_for_slot d s slot_df rooms nm).allocations.filter
        fun rec => decide (rec.course = p.1)).map AllocRec.roll = p.2 := by
  have hok : ¬ total_capacity_of rooms < total_students_of (courseToRolls slot_df) := by
    omega
  rw [allocate_for_slot_ok hok]
  have hfull := allocCourses_full d s nm rooms (sortCoursesDesc (courseToRolls slot_df))
    (initCaps rooms) hnd (initCaps_fst hnd)
    (by rw [sortCoursesDesc_sizes_sum, initCaps_snd_sum hnd]; exact hcap)
    (sortCoursesDesc_keys_nodup (courseToRolls_nodup_keys slot_df))
  refine ⟨hfull.1, ?_, ?_⟩
  · show ((allocCourses d s nm (building_rooms rooms)
        (sortCoursesDesc (courseToRolls slot_df)) (initCaps rooms)).unseated.map
        (fun p => Signal.unseated d s p.1 p.2.length)) = []
    rw [hfull.1]
    rfl
  · intro p hp
    exact hfull.2.2 p (mem_isortLe.mpr hp)

theorem alookup_eq_of_mem {κ ν : Type} [DecidableEq κ] :
    ∀ {l : List (κ × ν)}, (l.map Prod.fst).Nodup →
    ∀ {p : κ × ν}, p ∈ l → alookup p.1 l = some p.2
  | [], _, p, hp => absurd hp (List.not_mem_nil p)
  | (a, b) :: rest, hnd, p, hp => by
    rw [List.map_cons, List.nodup_cons] at hnd
    rcases List.mem_cons.mp hp with hp | hp
    · subst hp
      exact alookup_cons_pos rfl
    · have hne : ¬ a = p.1 := by
        intro e
        exact hnd.1 (by rw [e]; exact List.mem_map.mpr ⟨p, hp, rfl⟩)
      rw [alookup_cons_neg hne]
      exact alookup_eq_of_mem hnd.2 hp

theorem length_filter_le_one_of_nodup_map {γ δ : Type} [DecidableEq δ] (f : γ → δ) (r : δ) :
    ∀ l : List γ, (l.map f).Nodup → (l.filter fun a => decide (f a = r)).length ≤ 1
  | [], _ => by simp
  | a :: l, hnd => by
    rw [List.map_cons, List.nodup_cons] at hnd
    by_cases h : f a = r
    · rw [List.filter_cons, if_pos (by simp [h])]
      have hz : l.filter (fun a => decide (f a = r)) = [] := by
        rw [List.filter_eq_nil_iff]
        intro x hx hfx
        rw [decide_eq_true_eq] at hfx
        exact hnd.1 (List.mem_map.mpr ⟨x, hx, hfx.trans h.symm⟩)
      rw [hz]
      simp
    · rw [List.filter_cons, if_neg (by simp [h])]
      exact length_filter_le_one_of_nodup_map f r l hnd.2

theorem filter_course_roll (l : List AllocRec) (c r : String) :
    (l.filter fun rec => decide (rec.course = c ∧ rec.roll = r))
      = (l.filter fun rec => decide (rec.course = c)).filter
          (fun rec => decide (rec.roll = r)) := by
  rw [List.filter_filter]
  apply List.filter_congr
  intro a _
  rw [Bool.decide_and, Bool.and_comm]

theorem mem_rollsOfCourse {df : List Reg} {c r : String} :
    r ∈ rollsOfCourse df c ↔ ∃ row ∈ df, row.course = c ∧ row.roll = r := by
  unfold rollsOfCourse
  constructor
  · intro h
    rcases List.mem_map.mp h with ⟨row, hrow, hr⟩
    rcases List.mem_filter.mp hrow with ⟨hmem, hc⟩
    exact ⟨row, hmem, by simpa using hc, hr⟩
  · rintro ⟨row, hmem, hc, hr⟩
    exact List.mem_map.mpr ⟨row, List.mem_filter.mpr ⟨hmem, by simpa using hc⟩, hr⟩

/-! ## The clash detector -/

theorem strLt_irrefl (a : String) : strLt a a = false := clLt_irrefl a.data

theorem mem_of_mem_pairsAfter {γ : Type} : ∀ {l : List γ} {a b : γ},
    (a, b) ∈ pairsAfter l → a ∈ l ∧ b ∈ l
  | [], a, b, h => absurd h (List.not_mem_nil _)
  | x :: xs, a, b, h => by
    have h' : (a, b) ∈ (xs.map fun y => (x, y)) ++ pairsAfter xs := h
    rcases List.mem_append.mp h' with h2 | h2
    · rcases List.mem_map.mp h2 with ⟨y, hy, he⟩
      have ha : x = a := congrArg Prod.fst he
      have hb : y = b := congrArg Prod.snd he
      exact ⟨ha ▸ List.mem_cons_self x xs, hb ▸ List.mem_cons_of_mem x hy⟩

    · have := mem_of_mem_pairsAfter h2
      exact ⟨List.mem_cons_of_mem x this.1, List.mem_cons_of_mem x this.2⟩

theorem mem_pairsAfter_of_pairwise {γ : Type} {R : γ → γ → Prop} :
    ∀ {l : List γ}, l.Pairwise R → ∀ {a b : γ}, (a, b) ∈ pairsAfter l → R a b
  | [], _, a, b, h => absurd h (List.not_mem_nil _)
  | x :: xs, hpw, a, b, h => by
    rw [List.pairwise_cons] at hpw
    have h' : (a, b) ∈ (xs.map fun y => (x, y)) ++ pairsAfter xs := h
    rcases List.mem_append.mp h' with h2 | h2
    · rcases List.mem_map.mp h2 with ⟨y, hy, he⟩
      have ha : x = a := congrArg Prod.fst he
      have hb : y = b := congrArg Prod.snd he
      exact ha ▸ hb ▸ hpw.1 y hy
    · exact mem_pairsAfter_of_pairwise hpw.2 h2

theorem mem_pairsAfter_intro {γ : Type} {R : γ → γ → Prop}
    (hirr : ∀ a, ¬ R a a) (htr : ∀ a b c, R a b → R b c → R a c) :
    ∀ {l : List γ}, l.Pairwise R → ∀ {a b : γ}, a ∈ l → b ∈ l → R a b →
      (a, b) ∈ pairsAfter l
  | [], _, a, _, ha, _, _ => absurd ha (List.not_mem_nil _)
  | x :: xs, hpw, a, b, ha, hb, hR => by
    rw [List.pairwise_cons] at hpw
    have hout : (a, b) ∈ (xs.map fun y => (x, y)) ++ pairsAfter xs →
        (a, b) ∈ pairsAfter (x :: xs) := fun h => h
    apply hout
    rcases List.mem_cons.mp ha with ha | ha
    · subst ha
      rcases List.mem_cons.mp hb with hb | hb
      · rw [hb] at hR
        exact absurd hR (hirr a)
      · exact List.mem_append.mpr (Or.inl (List.mem_map.mpr ⟨b, hb, rfl⟩))
    · rcases List.mem_cons.mp hb with hb | hb
      · rw [hb] at hR
        exact absurd (htr a x a hR (hpw.1 a ha)) (hirr a)
      · exact List.mem_append.mpr
          (Or.inr (mem_pairsAfter_intro hirr htr hpw.2 ha hb hR))

theorem pairsAfter_nodup {γ : Type} : ∀ {l : List γ}, l.Nodup → (pairsAfter l).Nodup
  | [], _ => List.nodup_nil
  | x :: xs, hnd => by
    rw [List.nodup_cons] at hnd
    have h1 : ((xs.map fun y => (x, y))).Nodup :=
      hnd.2.map fun a b e => congrArg Prod.snd e
    have h2 := pairsAfter_nodup hnd.2
    show ((xs.map fun y => (x, y)) ++ pairsAfter xs).Nodup
    rw [List.nodup_append]
    refine ⟨h1, h2, ?_⟩
    intro p hp hq
    rcases List.mem_map.mp hp with ⟨y, _, he⟩
    have hfst := (mem_of_mem_pairsAfter hq).1
    rw [← he] at hfst
    exact hnd.1 hfst

theorem flatMap_nodup_of_key {γ δ : Type} (f : γ → List δ) :
    ∀ {l : List γ}, l.Nodup → (∀ x ∈ l, (f x).Nodup) →
    (∀ x ∈ l, ∀ y ∈ l, ∀ d, d ∈ f x → d ∈ f y → x = y) →
    (l.flatMap f).Nodup
  | [], _, _, _ => by simp
  | x :: xs, hnd, hf, hkey => by
    rw [List.flatMap_cons, List.nodup_append]
    refine ⟨hf x (List.mem_cons_self x xs),
      flatMap_nodup_of_key f (List.nodup_cons.mp hnd).2
        (fun y hy => hf y (List.mem_cons_of_mem x hy))
        (fun a ha b hb => hkey a (List.mem_cons_of_mem x ha) b (List.mem_cons_of_mem x hb)),
      ?_⟩
    intro e he he2
    rcases List.mem_flatMap.mp he2 with ⟨y, hy, hey⟩
    have hxy : x = y := hkey x (List.mem_cons_self x xs) y (List.mem_cons_of_mem x hy)
      e he hey
    exact (List.nodup_cons.mp hnd).1 (hxy ▸ hy)

theorem length_filter_eq_one_of_nodup_map_mem {γ δ : Type} [DecidableEq δ] (f : γ → δ)
    (r : δ) : ∀ l : List γ, (l.map f).Nodup → r ∈ l.map f →
      (l.filter fun a => decide (f a = r)).length = 1
  | [], _, hr => absurd hr (by simp)
  | a :: l, hnd, hr => by
    rw [List.map_cons, List.nodup_cons] at hnd
    by_cases h : f a = r
    · rw [List.filter_cons, if_pos (by simp [h])]
      have hz : l.filter (fun a => decide (f a = r)) = [] := by
        rw [List.filter_eq_nil_iff]
        intro x hx hfx
        rw [decide_eq_true_eq] at hfx
        exact hnd.1 (List.mem_map.mpr ⟨x, hx, hfx.trans h.symm⟩)
      rw [hz]
      rfl
    · rw [List.filter_cons, if_neg (by simp [h])]
      apply length_filter_eq_one_of_nodup_map_mem f r l hnd.2
      rcases List.mem_map.mp hr with ⟨x, hx, hfx⟩
      rcases List.mem_cons.mp hx with e | hx2
      · exact absurd (e ▸ hfx) h
      · exact List.mem_map.mpr ⟨x, hx2, hfx⟩

theorem courses_pairwise_strLt (l : List String) :
    (isortLe strLe (dedupFS l)).Pairwise fun a b => strLt a b = true := by
  have hpw := @isortLe_pairwise String strLe strLe_total
    (fun _ _ _ hab hbc => strLe_trans hab hbc) (dedupFS l)
  have hnd : (isortLe strLe (dedupFS l)).Nodup := isortLe_nodup (dedupFS_nodup l)
  exact (hpw.and hnd).imp fun h => strLt_of_le_of_ne h.1 h.2

theorem check_clashes_eq (slot_df : List Reg) :
    check_clashes_for_slot slot_df =
      (pairsAfter (isortLe strLe (dedupFS (slot_df.map Reg.course)))).flatMap
        (fun p => (isortLe strLe ((dedupFS (rollsOfCourse slot_df p.1)).filter
            fun x => decide (x ∈ rollsOfCourse slot_df p.2))).map
          fun x => Signal.clash x p.1 p.2) := rfl

theorem mem_check_clashes (slot_df : List Reg) (r c1 c2 : String) :
    Signal.clash r c1 c2 ∈ check_clashes_for_slot slot_df ↔
      (strLt c1 c2 = true ∧ (∃ row ∈ slot_df, row.course = c1 ∧ row.roll = r) ∧
        ∃ row ∈ slot_df, row.course = c2 ∧ row.roll = r) := by
  rw [check_clashes_eq, List.mem_flatMap]
  constructor
  · rintro ⟨p, hp, hsig⟩
    rcases List.mem_map.mp hsig with ⟨x, hx, he⟩
    injection he with h1 h2 h3
    have hlt := mem_pairsAfter_of_pairwise (courses_pairwise_strLt _) hp
    have hx' := List.mem_filter.mp (mem_isortLe.mp hx)
    have hr1 : x ∈ rollsOfCourse slot_df p.1 := mem_dedupFS.mp hx'.1
    have hr2 : x ∈ rollsOfCourse slot_df p.2 := of_decide_eq_true hx'.2
    subst h1
    rw [h2] at hr1
    rw [h3] at hr2
    rw [h2, h3] at hlt
    exact ⟨hlt, mem_rollsOfCourse.mp hr1, mem_rollsOfCourse.mp hr2⟩
  · rintro ⟨hlt, h1, h2⟩
    have hr1 : r ∈ rollsOfCourse slot_df c1 := mem_rollsOfCourse.mpr h1
    have hr2 : r ∈ rollsOfCourse slot_df c2 := mem_rollsOfCourse.mpr h2
    have hc1 : c1 ∈ isortLe strLe (dedupFS (slot_df.map Reg.course)) := by
      rw [mem_isortLe, mem_dedupFS]
      rcases h1 with ⟨row, hrow, hc, _⟩
      exact List.mem_map.mpr ⟨row, hrow, hc⟩
    have hc2 : c2 ∈ isortLe strLe (dedupFS (slot_df.map Reg.course)) := by
      rw [mem_isortLe, mem_dedupFS]
      rcases h2 with ⟨row, hrow, hc, _⟩
      exact List.mem_map.mpr ⟨row, hrow, hc⟩
    refine ⟨(c1, c2), mem_pairsAfter_intro
      (R := fun a b => strLt a b = true)
      (fun a h => by
        have h2 : strLt a a = true := h
        rw [strLt_irrefl a] at h2
        cases h2)
      (fun _ _ _ hab hbc => strLt_trans hab hbc)
      (courses_pairwise_strLt _) hc1 hc2 hlt, ?_⟩
    apply List.mem_map.mpr
    refine ⟨r, ?_, rfl⟩
    rw [mem_isortLe]
    exact List.mem_filter.mpr ⟨mem_dedupFS.mpr hr1, decide_eq_true hr2⟩

theorem check_clashes_nodup (slot_df : List Reg) :
    (check_clashes_for_slot slot_df).Nodup := by
  rw [check_clashes_eq]
  apply flatMap_nodup_of_key
  · exact pairsAfter_nodup (isortLe_nodup (dedupFS_nodup _))
  · intro p _
    apply List.Nodup.map
    · intro r1 r2 e
      injection e
    · exact isortLe_nodup (List.Nodup.filter _ (dedupFS_nodup _))
  · intro p _ q _ e hep heq
    rcases List.mem_map.mp hep with ⟨r1, _, he1⟩
    rcases List.mem_map.mp heq with ⟨r2, _, he2⟩
    rw [← he2] at he1
    injection he1 with _ h2 h3
    exact Prod.ext h2 h3

/-! ## The per-slot loop of `main` -/

theorem slotKeys_nodup (regs : List Reg) : (slotKeys regs).Nodup :=
  isortLe_nodup (dedupFS_nodup _)

theorem allocate_fields (d s : String) (slot_df : List Reg) (rooms : List RoomInfo)
    (nm : String → String) :
    ∀ rec ∈ (allocate_for_slot d s slot_df rooms nm).allocations,
      rec.date = d ∧ rec.slot = s := by
  intro rec hrec
  by_cases h : total_capacity_of rooms < total_students_of (courseToRolls slot_df)
  · rw [allocate_for_slot_fail h] at hrec
    exact absurd hrec (List.not_mem_nil _)
  · rw [allocate_for_slot_ok h] at hrec
    have hf := allocCourses_fields d s nm (building_rooms rooms)
      (sortCoursesDesc (courseToRolls slot_df)) (initCaps rooms) rec hrec
    exact ⟨hf.1, hf.2.1⟩

theorem filter_flatMap {γ δ : Type} (p : δ → Bool) (f : γ → List δ) :
    ∀ l : List γ, (l.flatMap f).filter p = l.flatMap fun x => (f x).filter p
  | [] => rfl
  | x :: xs => by
    rw [List.flatMap_cons, List.filter_append, filter_flatMap p f xs, List.flatMap_cons]

theorem flatMap_eq_nil_of {γ δ : Type} (g : γ → List δ) :
    ∀ {ks : List γ}, (∀ k ∈ ks, g k = []) → ks.flatMap g = []
  | [], _ => rfl
  | x :: ks, h => by
    rw [List.flatMap_cons, h x (List.mem_cons_self x ks), List.nil_append]
    exact flatMap_eq_nil_of g fun k hk => h k (List.mem_cons_of_mem x hk)

theorem flatMap_eq_single {γ δ : Type} (g : γ → List δ) :
    ∀ {ks : List γ} {k : γ} {out : List δ}, ks.Nodup → k ∈ ks →
      g k = out → (∀ k' ∈ ks, k' ≠ k → g k' = []) → ks.flatMap g = out
  | [], k, _, _, hk, _, _ => absurd hk (List.not_mem_nil k)
  | x :: ks, k, out, hnd, hk, hgk, hz => by
    rw [List.flatMap_cons]
    rcases List.mem_cons.mp hk with he | hk2
    · subst he
      rw [hgk, flatMap_eq_nil_of g (fun k' hk' =>
        hz k' (List.mem_cons_of_mem _ hk')
          (fun e => (List.nodup_cons.mp hnd).1 (e ▸ hk'))), List.append_nil]
    · have hxk : x ≠ k := fun e => (List.nodup_cons.mp hnd).1 (e.symm ▸ hk2)
      rw [hz x (List.mem_cons_self x ks) hxk, List.nil_append]
      exact flatMap_eq_single g (List.nodup_cons.mp hnd).2 hk2 hgk
        fun k' hk' hne => hz k' (List.mem_cons_of_mem x hk') hne

theorem check_clashes_shape (slot_df : List Reg) :
    ∀ sg ∈ check_clashes_for_slot slot_df, ∃ r c1 c2, sg = Signal.clash r c1 c2 := by
  intro sg hsg
  rw [check_clashes_eq] at hsg
  rcases List.mem_flatMap.mp hsg with ⟨p, _, hm⟩
  rcases List.mem_map.mp hm with ⟨x, _, he⟩
  exact ⟨x, p.1, p.2, he.symm⟩

theorem clashes_filter_capErr (df : List Reg) (a b : String) (m n : Nat) :
    (check_clashes_for_slot df).filter
      (fun sg => decide (sg = Signal.capacityError a b m n)) = [] := by
  rw [List.filter_eq_nil_iff]
  intro sg hsg hd
  rw [decide_eq_true_eq] at hd
  rcases check_clashes_shape df sg hsg with ⟨r, c1, c2, he⟩
  rw [he] at hd
  exact Signal.noConfusion hd

theorem process_slots_run (regs : List Reg) (rooms : List RoomInfo) (nm : String → String) :
    ∀ (ks : List Key) (acc : RunResult), ks.Nodup →
      (∀ k ∈ ks, k ∉ acc.per_slot_room_caps.map Prod.fst) →
      ks.foldl
        (fun acc k =>
          let slot_df := rowsFor regs k
          let clashes := check_clashes_for_slot slot_df
          let res := allocate_for_slot k.1 k.2 slot_df rooms nm
          (⟨acc.all_allocations ++ res.allocations,
            aput k res.room_caps acc.per_slot_room_caps,
            acc.signals ++ clashes ++ res.signals⟩ : RunResult))
        acc
      = ⟨acc.all_allocations ++ ks.flatMap
            (fun k => (allocate_for_slot k.1 k.2 (rowsFor regs k) rooms nm).allocations),
          acc.per_slot_room_caps ++ ks.map
            (fun k => (k, (allocate_for_slot k.1 k.2 (rowsFor regs k) rooms nm).room_caps)),
          acc.signals ++ ks.flatMap
            (fun k => check_clashes_for_slot (rowsFor regs k)
              ++ (allocate_for_slot k.1 k.2 (rowsFor regs k) rooms nm).signals)⟩
  | [], acc, _, _ => by simp
  | k :: ks, acc, hnd, hdisj => by
    have hk0 : k ∉ acc.per_slot_room_caps.map Prod.fst :=
      hdisj k (List.mem_cons_self k ks)
    rw [List.foldl_cons]
    show ks.foldl
        (fun acc k =>
          let slot_df := rowsFor regs k
          let clashes := check_clashes_for_slot slot_df
          let res := allocate_for_slot k.1 k.2 slot_df rooms nm
          (⟨acc.all_allocations ++ res.allocations,
            aput k res.room_caps acc.per_slot_room_caps,
            acc.signals ++ clashes ++ res.signals⟩ : RunResult))
        ⟨acc.all_allocations ++ (allocate_for_slot k.1 k.2 (rowsFor regs k) rooms nm).allocations,
          aput k (allocate_for_slot k.1 k.2 (rowsFor regs k) rooms nm).room_caps
            acc.per_slot_room_caps,
          acc.signals ++ check_clashes_for_slot (rowsFor regs k)
            ++ (allocate_for_slot k.1 k.2 (rowsFor regs k) rooms nm).signals⟩
      = _
    rw [aput_of_not_mem hk0]
    rw [process_slots_run regs rooms nm ks
      ⟨acc.all_allocations ++ (allocate_for_slot k.1 k.2 (rowsFor regs k) rooms nm).allocations,
        acc.per_slot_room_caps
          ++ [(k, (allocate_for_slot k.1 k.2 (rowsFor regs k) rooms nm).room_caps)],
        acc.signals ++ check_clashes_for_slot (rowsFor regs k)
          ++ (allocate_for_slot k.1 k.2 (rowsFor regs k) rooms nm).signals⟩
      (List.nodup_cons.mp hnd).2
      (by
        intro k' hk'
        rw [List.map_append, List.mem_append]
        rintro (h | h)
        · exact hdisj k' (List.mem_cons_of_mem k hk') h
        · have : k' = k := by simpa using h
          exact (List.nodup_cons.mp hnd).1 (this ▸ hk'))]
    simp only [List.flatMap_cons, List.map_cons, List.append_assoc, List.singleton_append,
      List.cons_append, List.nil_append]

theorem process_slots_eq (regs : List Reg) (rooms : List RoomInfo) (nm : String → String) :
    process_slots regs rooms nm
      = ⟨(slotKeys regs).flatMap
            (fun k => (allocate_for_slot k.1 k.2 (rowsFor regs k) rooms nm).allocations),
          (slotKeys regs).map
            (fun k => (k, (allocate_for_slot k.1 k.2 (rowsFor regs k) rooms nm).room_caps)),
          (slotKeys regs).flatMap
            (fun k => check_clashes_for_slot (rowsFor regs k)
              ++ (allocate_for_slot k.1 k.2 (rowsFor regs k) rooms nm).signals)⟩ := by
  unfold process_slots
  rw [process_slots_run regs rooms nm (slotKeys regs) ⟨[], [], []⟩ (slotKeys_nodup regs)
    (by intro k _ h; simp at h)]
  simp

theorem process_slots_allocations (regs : List Reg) (rooms : List RoomInfo)
    (nm : String → String) :
    (process_slots regs rooms nm).all_allocations
      = (slotKeys regs).flatMap
          (fun k => (allocate_for_slot k.1 k.2 (rowsFor regs k) rooms nm).allocations) := by
  rw [process_slots_eq]

theorem process_slots_caps (regs : List Reg) (rooms : List RoomInfo)
    (nm : String → String) :
    (process_slots regs rooms nm).per_slot_room_caps
      = (slotKeys regs).map
          (fun k => (k, (allocate_for_slot k.1 k.2 (rowsFor regs k) rooms nm).room_caps)) := by
  rw [process_slots_eq]

theorem process_slots_signals (regs : List Reg) (rooms : List RoomInfo)
    (nm : String → String) :
    (process_slots regs rooms nm).signals
      = (slotKeys regs).flatMap
          (fun k => check_clashes_for_slot (rowsFor regs k)
            ++ (allocate_for_slot k.1 k.2 (rowsFor regs k) rooms nm).signals) := by
  rw [process_slots_eq]

theorem per_slot_lookup (regs : List Reg) (rooms : List RoomInfo) (nm : String → String)
    {k : Key} (hk : k ∈ slotKeys regs) :
    alookup k (process_slots regs rooms nm).per_slot_room_caps
      = some (allocate_for_slot k.1 k.2 (rowsFor regs k) rooms nm).room_caps := by
  rw [process_slots_caps]
  have hknd : (((slotKeys regs).map fun k =>
      (k, (allocate_for_slot k.1 k.2 (rowsFor regs k) rooms nm).room_caps)).map
        Prod.fst).Nodup := by
    have he : ((slotKeys regs).map fun k =>
        (k, (allocate_for_slot k.1 k.2 (rowsFor regs k) rooms nm).room_caps)).map
          Prod.fst = slotKeys regs := by
      rw [List.map_map]
      exact List.map_id _
    rw [he]
    exact slotKeys_nodup regs
  exact alookup_eq_of_mem hknd (List.mem_map.mpr ⟨k, hk, rfl⟩)

/-! ## The registration builder -/

theorem rowRegs_cell (cr : List CRRow) (row : TTRow) (lbl : String) (oc : Option String) :
    ((match oc with
      | none => []
      | some cell =>
        let cell_str := pyStrip cell
        if cell_str = "" then []
        else if pyStartsWith (pyUpper cell_str) "NO EXAM" then []
        else
          (cellCourses cell_str).flatMap fun course =>
            ((cr.filter fun q => q.course_code = course).map fun q => pyStrip q.rollno).map
              fun r => ⟨dateOf row, lbl, course, r⟩) : List Reg)
    = (if specProcessable oc then
        (((pySplitSemi (pyStrip (oc.getD ""))).map pyStrip).filter
            fun c => decide (c ≠ "")).flatMap fun course =>
          (cr.filter fun q => q.course_code = course).map fun q =>
            ⟨pyStrip row.date, lbl, course, pyStrip q.rollno⟩
      else []) := by
  cases oc with
  | none => rfl
  | some cell =>
    show ((if pyStrip cell = "" then []
      else if pyStartsWith (pyUpper (pyStrip cell)) "NO EXAM" then []
      else (cellCourses (pyStrip cell)).flatMap fun course =>
        ((cr.filter fun q => q.course_code = course).map fun q => pyStrip q.rollno).map
          fun r => (⟨dateOf row, lbl, course, r⟩ : Reg)) : List Reg) = _
    by_cases h1 : pyStrip cell = ""
    · rw [if_pos h1]
      have hsp : specProcessable (some cell) = false := by
        simp [specProcessable, h1]
      rw [hsp]
      rfl
    · rw [if_neg h1]
      by_cases h2 : pyStartsWith (pyUpper (pyStrip cell)) "NO EXAM" = true
      · rw [if_pos h2]
        have hsp : specProcessable (some cell) = false := by
          simp [specProcessable, h1, h2]
        rw [hsp]
        rfl
      · rw [if_neg h2]
        have hb : pyStartsWith (pyUpper (pyStrip cell)) "NO EXAM" = false := by
          revert h2
          cases pyStartsWith (pyUpper (pyStrip cell)) "NO EXAM" <;> simp
        have hsp : specProcessable (some cell) = true := by
          simp [specProcessable, h1, hb]
        rw [hsp, if_pos rfl]
        apply congrArg
        funext course
        rw [List.map_map]
        rfl

theorem build_regs_eq_spec (tt : List TTRow) (cr : List CRRow) :
    tt.flatMap (rowRegs cr) = specRegistrations tt cr := by
  show tt.flatMap (rowRegs cr) = tt.flatMap fun row =>
    (specSessions row).flatMap fun p =>
      if specProcessable p.2 then
        (((pySplitSemi (pyStrip (p.2.getD ""))).map pyStrip).filter
            fun c => decide (c ≠ "")).flatMap fun course =>
          (cr.filter fun q => q.course_code = course).map fun q =>
            ⟨pyStrip row.date, p.1, course, pyStrip q.rollno⟩
      else []
  apply congrArg
  funext row
  show ((specSessions row).flatMap fun p =>
      ((match p.2 with
        | none => []
        | some cell =>
          let cell_str := pyStrip cell
          if cell_str = "" then []
          else if pyStartsWith (pyUpper cell_str) "NO EXAM" then []
          else
            (cellCourses cell_str).flatMap fun course =>
              ((cr.filter fun q => q.course_code = course).map
                  fun q => pyStrip q.rollno).map
                fun r => ⟨dateOf row, p.1, course, r⟩) : List Reg))
    = (specSessions row).flatMap fun p =>
      if specProcessable p.2 then
        (((pySplitSemi (pyStrip (p.2.getD ""))).map pyStrip).filter
            fun c => decide (c ≠ "")).flatMap fun course =>
          (cr.filter fun q => q.course_code = course).map fun q =>
            ⟨pyStrip row.date, p.1, course, pyStrip q.rollno⟩
      else []
  apply congrArg
  funext p
  exact rowRegs_cell cr row p.1 p.2

/-! ## Bridges between the engine's building choice and the spec's -/

theorem map_pair_keys_nodup {κ δ : Type} (l : List κ) (g : κ → δ) (h : l.Nodup) :
    ((l.map fun b => (b, g b)).map Prod.fst).Nodup := by
  have he : (l.map fun b => (b, g b)).map Prod.fst = l := by
    rw [List.map_map]
    exact List.map_id _
  rw [he]
  exact h

theorem building_cap_eq_spec (rooms : List RoomInfo) (caps : List (Key × Nat)) :
    building_cap_of (building_rooms rooms) caps
      = (specBuildings rooms).map fun b => (b, specBuildingCap caps rooms b) := by
  unfold building_cap_of
  rw [building_rooms_eq_spec, List.map_map]
  have hcomp : ((fun p : String × List Key => (p.1, ((p.2.map (capOf caps)).sum)))
      ∘ fun b => (b, roomsAsc rooms b))
      = fun b => (b, (((roomsAsc rooms b).map (capOf caps)).sum)) := rfl
  rw [hcomp]
  have hsum : ∀ b, ((roomsAsc rooms b).map (capOf caps)).sum
      = specBuildingCap caps rooms b := by
    intro b
    unfold roomsAsc specBuildingCap
    exact ((isortLe_perm roomLe _).map (capOf caps)).sum_eq
  have hfun : (fun b => (b, (((roomsAsc rooms b).map (capOf caps)).sum)))
      = fun b => (b, specBuildingCap caps rooms b) := by
    funext b
    rw [hsum b]
  rw [hfun]

theorem building_cap_lookup (rooms : List RoomInfo) (caps : List (Key × Nat)) {b : String}
    (hb : b ∈ specBuildings rooms) :
    alookup b (building_cap_of (building_rooms rooms) caps)
      = some (specBuildingCap caps rooms b) := by
  rw [building_cap_eq_spec]
  exact alookup_eq_of_mem
    (map_pair_keys_nodup _ _ (dedupFS_nodup _))
    (List.mem_map.mpr ⟨b, hb, rfl⟩)

theorem building_rooms_lookup_spec (rooms : List RoomInfo) {b : String}
    (hb : b ∈ specBuildings rooms) :
    alookup b (building_rooms rooms) = some (roomsAsc rooms b) := by
  rw [building_rooms_eq_spec]
  exact alookup_eq_of_mem
    (map_pair_keys_nodup _ _ (dedupFS_nodup _))
    (List.mem_map.mpr ⟨b, hb, rfl⟩)

theorem roomsAsc_nodup (rooms : List RoomInfo) (b : String)
    (hnd : (rooms.map roomKey).Nodup) : (roomsAsc rooms b).Nodup := by
  unfold roomsAsc
  apply isortLe_nodup
  exact hnd.sublist ((List.filter_sublist rooms).map roomKey)

/-! ## Claim theorems -/

/-- C3: within every slot the engine sorts the (deduplicated) course list by
strictly decreasing enrollment count with a stable sort: the sorted list is a
permutation of the discovered one, sizes never increase along it, every
equal-size class keeps exactly its discovery order, and the discovered order
itself is first-seen order of the slot's registration rows. -/
theorem course_order_largest_first_stable (slot_df : List Reg) :
    (sortCoursesDesc (courseToRolls slot_df)).Perm (courseToRolls slot_df) ∧
    (sortCoursesDesc (courseToRolls slot_df)).Pairwise
      (fun a b => b.2.length ≤ a.2.length) ∧
    (∀ n : Nat,
      (sortCoursesDesc (courseToRolls slot_df)).filter (fun p => decide (p.2.length = n))
        = (courseToRolls slot_df).filter (fun p => decide (p.2.length = n))) ∧
    (courseToRolls slot_df).map Prod.fst = dedupFS (slot_df.map Reg.course) := by
  refine ⟨isortLe_perm _ _, ?_, ?_, courseToRolls_keys slot_df⟩
  · have hp := @isortLe_pairwise (String × List String)
      (fun a b => decide (b.2.length ≤ a.2.length))
      (fun a b => by
        rcases Nat.le_total b.2.length a.2.length with h | h
        · exact Or.inl (by simp [h])
        · exact Or.inr (by simp [h]))
      (fun a b c hab hbc => by
        simp only [decide_eq_true_eq] at hab hbc ⊢
        omega)
      (courseToRolls slot_df)
    exact hp.imp fun h => by simpa using h
  · intro n
    exact isortLe_desc_filter (fun p : String × List String => p.2.length) n
      (courseToRolls slot_df)

/-- C6: the capacity planner is a total function over the room rows; for a
buffer that is at least 0 it yields effective capacity max(raw - buffer, 0)
(never negative, and 0 whenever the buffer reaches the raw capacity), the
per-course capacity equal to it in dense mode and its integer half, rounded
down, in sparse mode. -/
theorem capacity_planner_contract (class_df : List ClassRoom) (buffer : Int)
    (mode : String) (row : RoomInfo)
    (hrow : row ∈ compute_effective_capacities class_df buffer mode)
    (_hbuf : 0 ≤ buffer) :
    row.effective_capacity = max (row.capacity - buffer) 0 ∧
    0 ≤ row.effective_capacity ∧
    (mode = "sparse" →
      2 * row.per_subject_capacity ≤ row.effective_capacity ∧
      row.effective_capacity < 2 * row.per_subject_capacity + 2) ∧
    (mode = "dense" → row.per_subject_capacity = row.effective_capacity) ∧
    (row.capacity ≤ buffer → row.effective_capacity = 0 ∧ row.per_subject_capacity = 0) := by
  rcases List.mem_map.mp hrow with ⟨r, _, rfl⟩
  unfold compute_room
  simp only []
  refine ⟨trivial, le_max_right _ _, ?_, ?_, ?_⟩
  · intro hm
    rw [if_pos hm]
    constructor
    · omega
    · omega
  · intro hm
    rw [if_neg (show ¬ mode = "sparse" by rw [hm]; decide)]
  · intro hcb
    have he : max (r.capacity - buffer) 0 = 0 := by omega
    rw [he]
    by_cases hm : mode = "sparse"
    · rw [if_pos hm]
      exact ⟨rfl, by decide⟩
    · rw [if_neg hm]
      exact ⟨rfl, rfl⟩

/-- Witness for C6 at a concrete room: capacity 10, buffer 3, sparse mode
gives effective 7 and per-course 3. -/
theorem capacity_planner_contract_witness :
    ((compute_room 3 "sparse" ⟨"B1", "101", 10⟩)
        ∈ compute_effective_capacities [⟨"B1", "101", 10⟩] 3 "sparse" ∧ (0 : Int) ≤ 3) ∧
    ((compute_room 3 "sparse" ⟨"B1", "101", 10⟩).effective_capacity
        = max (((compute_room 3 "sparse" ⟨"B1", "101", 10⟩).capacity) - 3) 0 ∧
      (0 : Int) ≤ (compute_room 3 "sparse" ⟨"B1", "101", 10⟩).effective_capacity ∧
      (("sparse" : String) = "sparse" →
        2 * (compute_room 3 "sparse" ⟨"B1", "101", 10⟩).per_subject_capacity
            ≤ (compute_room 3 "sparse" ⟨"B1", "101", 10⟩).effective_capacity ∧
        (compute_room 3 "sparse" ⟨"B1", "101", 10⟩).effective_capacity
            < 2 * (compute_room 3 "sparse" ⟨"B1", "101", 10⟩).per_subject_capacity + 2) ∧
      (("sparse" : String) = "dense" →
        (compute_room 3 "sparse" ⟨"B1", "101", 10⟩).per_subject_capacity
          = (compute_room 3 "sparse" ⟨"B1", "101", 10⟩).effective_capacity) ∧
      ((compute_room 3 "sparse" ⟨"B1", "101", 10⟩).capacity ≤ 3 →
        (compute_room 3 "sparse" ⟨"B1", "101", 10⟩).effective_capacity = 0 ∧
        (compute_room 3 "sparse" ⟨"B1", "101", 10⟩).per_subject_capacity = 0)) :=
  ⟨⟨by decide, by decide⟩,
    capacity_planner_contract [⟨"B1", "101", 10⟩] 3 "sparse"
      (compute_room 3 "sparse" ⟨"B1", "101", 10⟩) (by decide) (by decide)⟩

/-- C5: per-room counters never increase (so seats used never exceed the
per-course capacity, the Nat counter being the non-negative remainder), and a
room drained to exactly 0 receives no further student for the rest of the
slot, later courses included; at slot level, every room's final counter is
bounded by its fresh counter. -/
theorem room_counter_monotone_and_zero_skipped :
    (∀ (d s : String) (nm : String → String) (bRooms : List (String × List Key))
        (courses : List (String × List String)) (caps : List (Key × Nat)) (k : Key),
      capOf (allocCourses d s nm bRooms courses caps).caps k ≤ capOf caps k ∧
      (capOf caps k = 0 →
        (∀ rec ∈ (allocCourses d s nm bRooms courses caps).records,
          (rec.building, rec.room) ≠ k) ∧
        capOf (allocCourses d s nm bRooms courses caps).caps k = 0)) ∧
    (∀ (d s : String) (slot_df : List Reg) (rooms : List RoomInfo)
        (nm : String → String) (k : Key),
      capOf (allocate_for_slot d s slot_df rooms nm).room_caps k
        ≤ capOf (initCaps rooms) k) := by
  constructor
  · intro d s nm bRooms courses caps k
    exact ⟨allocCourses_capOf_le d s nm bRooms courses caps k,
      fun hz => allocCourses_zero_skip d s nm bRooms courses caps k hz⟩
  · intro d s slot_df rooms nm k
    by_cases h : total_capacity_of rooms < total_students_of (courseToRolls slot_df)
    · rw [allocate_for_slot_fail h]
    · rw [allocate_for_slot_ok h]
      exact allocCourses_capOf_le d s nm _ _ _ k

/-- Witness for C5: a room whose counter is already 0 receives nobody and ends
at 0 on a concrete run. -/
theorem room_counter_witness :
    capOf [(("B1", "101"), 0)] ("B1", "101") = 0 ∧
    (∀ rec ∈ (allocCourses "d" "m" wNames (building_rooms wRooms) [("A", ["r1"])]
        [(("B1", "101"), 0)]).records, (rec.building, rec.room) ≠ ("B1", "101")) ∧
    capOf (allocCourses "d" "m" wNames (building_rooms wRooms) [("A", ["r1"])]
        [(("B1", "101"), 0)]).caps ("B1", "101") = 0 :=
  ⟨by decide,
    ((room_counter_monotone_and_zero_skipped.1 "d" "m" wNames (building_rooms wRooms)
      [("A", ["r1"])] [(("B1", "101"), 0)] ("B1", "101")).2 (by decide)).1,
    ((room_counter_monotone_and_zero_skipped.1 "d" "m" wNames (building_rooms wRooms)
      [("A", ["r1"])] [(("B1", "101"), 0)] ("B1", "101")).2 (by decide)).2⟩

/-- C4 (amended): for every slot that passes the capacity pre-check (with
distinct room keys), the engine deduplicates each course's roll list keeping
first-seen order, seats no roll more than once for the same course, reports
no roll unseated, and the set of seated rolls equals the set of registered
rolls. The original claim's "minus the unseated rolls" phrasing fails on
slots that fail the pre-check, where registered rolls are neither seated nor
reported unseated. -/
theorem slot_dedup_and_seating_partition (d s : String) (slot_df : List Reg)
    (rooms : List RoomInfo) (nm : String → String)
    (hnd : (rooms.map roomKey).Nodup)
    (hcap : total_students_of (courseToRolls slot_df) ≤ total_capacity_of rooms) :
    (∀ c l, alookup c (courseToRolls slot_df) = some l
      → l = dedupFS (rollsOfCourse slot_df c)) ∧
    (∀ c r, ((allocate_for_slot d s slot_df rooms nm).allocations.filter
        fun rec => decide (rec.course = c ∧ rec.roll = r)).length ≤ 1) ∧
    (allocate_for_slot d s slot_df rooms nm).unseated = [] ∧
    (∀ r : String,
      (∃ rec ∈ (allocate_for_slot d s slot_df rooms nm).allocations, rec.roll = r) ↔
      ∃ row ∈ slot_df, row.roll = r) := by
  have hsucc := allocate_for_slot_success d s slot_df rooms nm hnd hcap
  have hok : ¬ total_capacity_of rooms < total_students_of (courseToRolls slot_df) := by
    omega
  refine ⟨?_, ?_, hsucc.1, ?_⟩
  · intro c l hl
    rw [courseToRolls_lookup] at hl
    by_cases hz : rollsOfCourse slot_df c = []
    · rw [if_pos hz] at hl
      cases hl
    · rw [if_neg hz] at hl
      exact (Option.some.inj hl).symm
  · intro c r
    rw [filter_course_roll]
    apply length_filter_le_one_of_nodup_map AllocRec.roll r
    by_cases hz : rollsOfCourse slot_df c = []
    · have h0 : (allocate_for_slot d s slot_df rooms nm).allocations.filter
          (fun rec => decide (rec.course = c)) = [] := by
        rw [List.filter_eq_nil_iff]
        intro rec hrec hdec
        rw [decide_eq_true_eq] at hdec
        rw [allocate_for_slot_ok hok] at hrec
        rcases allocCourses_fields d s nm (building_rooms rooms)
            (sortCoursesDesc (courseToRolls slot_df)) (initCaps rooms) rec hrec with
          ⟨_, _, p, hp, hc2, _⟩
        have hpc : p ∈ courseToRolls slot_df := mem_isortLe.mp hp
        have hlook := alookup_eq_of_mem (courseToRolls_nodup_keys slot_df) hpc
        rw [courseToRolls_lookup, if_pos (by rw [← hc2, hdec]; exact hz)] at hlook
        cases hlook
      rw [h0]
      exact List.nodup_nil
    · have hpm : (c, dedupFS (rollsOfCourse slot_df c)) ∈ courseToRolls slot_df := by
        apply mem_of_alookup_some
        rw [courseToRolls_lookup, if_neg hz]
      have h2 : ((allocate_for_slot d s slot_df rooms nm).allocations.filter
            fun rec => decide (rec.course = c)).map AllocRec.roll
          = dedupFS (rollsOfCourse slot_df c) :=
        hsucc.2.2 (c, dedupFS (rollsOfCourse slot_df c)) hpm
      rw [h2]
      exact dedupFS_nodup _
  · intro r
    constructor
    · rintro ⟨rec, hrec, hroll⟩
      rw [allocate_for_slot_ok hok] at hrec
      rcases allocCourses_fields d s nm (building_rooms rooms)
          (sortCoursesDesc (courseToRolls slot_df)) (initCaps rooms) rec hrec with
        ⟨_, _, p, hp, _, hr2⟩
      have hpc : p ∈ courseToRolls slot_df := mem_isortLe.mp hp
      have hlook := alookup_eq_of_mem (courseToRolls_nodup_keys slot_df) hpc
      rw [courseToRolls_lookup] at hlook
      by_cases hz : rollsOfCourse slot_df p.1 = []
      · rw [if_pos hz] at hlook
        cases hlook
      · rw [if_neg hz] at hlook
        have hp2 : p.2 = dedupFS (rollsOfCourse slot_df p.1) := (Option.some.inj hlook).symm
        have hrin : rec.roll ∈ rollsOfCourse slot_df p.1 := mem_dedupFS.mp (hp2 ▸ hr2)
        rcases mem_rollsOfCourse.mp hrin with ⟨row, hrow, _, hrr⟩
        exact ⟨row, hrow, hrr.trans hroll⟩
    · rintro ⟨row, hrow, hroll⟩
      have hrin : row.roll ∈ rollsOfCourse slot_df row.course :=
        mem_rollsOfCourse.mpr ⟨row, hrow, rfl, rfl⟩
      have hz : rollsOfCourse slot_df row.course ≠ [] := by
        intro h
        rw [h] at hrin
        exact List.not_mem_nil _ hrin
      have hpm : (row.course, dedupFS (rollsOfCourse slot_df row.course))
          ∈ courseToRolls slot_df := by
        apply mem_of_alookup_some
        rw [courseToRolls_lookup, if_neg hz]
      have hfil : ((allocate_for_slot d s slot_df rooms nm).allocations.filter
            fun rec => decide (rec.course = row.course)).map AllocRec.roll
          = dedupFS (rollsOfCourse slot_df row.course) :=
        hsucc.2.2 (row.course, dedupFS (rollsOfCourse slot_df row.course)) hpm
      have hrd : row.roll ∈ dedupFS (rollsOfCourse slot_df row.course) :=
        mem_dedupFS.mpr hrin
      rw [← hfil] at hrd
      rcases List.mem_map.mp hrd with ⟨rec, hrecf, hrreq⟩
      exact ⟨rec, (List.mem_filter.mp hrecf).1, hrreq.trans hroll⟩

/-- Witness for C4 on a concrete slot: one course, one student, one room with
one seat; the pre-check passes and the amended partition holds. -/
theorem slot_dedup_and_seating_partition_witness :
    ((wRoomsSmall.map roomKey).Nodup ∧
      total_students_of (courseToRolls cexRegsA) ≤ total_capacity_of wRoomsSmall) ∧
    ((∀ c l, alookup c (courseToRolls cexRegsA) = some l
        → l = dedupFS (rollsOfCourse cexRegsA c)) ∧
      (∀ c r,
        ((allocate_for_slot "2024-01-01" "morning" cexRegsA wRoomsSmall wNames).allocations.filter
          fun rec => decide (rec.course = c ∧ rec.roll = r)).length ≤ 1) ∧
      (allocate_for_slot "2024-01-01" "morning" cexRegsA wRoomsSmall wNames).unseated = [] ∧
      (∀ r : String,
        (∃ rec ∈ (allocate_for_slot "2024-01-01" "morning" cexRegsA wRoomsSmall
            wNames).allocations, rec.roll = r) ↔
        ∃ row ∈ cexRegsA, row.roll = r)) :=
  ⟨⟨by decide, by decide⟩,
    slot_dedup_and_seating_partition "2024-01-01" "morning" cexRegsA wRoomsSmall wNames
      (by decide) (by decide)⟩

/-- Counterexample to C4 as stated: a slot with one registered student and no
rooms fails the pre-check; nobody is seated and no unseated warning is
emitted, so seated ≠ registered minus unseated. -/
theorem seated_union_counterexample :
    ¬ (∀ r : String,
        (∃ rec ∈ (allocate_for_slot "2024-01-01" "morning" cexRegsA [] wNames).allocations,
          rec.roll = r) ↔
        ((∃ row ∈ cexRegsA, row.roll = r) ∧
          ¬ ∃ p ∈ (allocate_for_slot "2024-01-01" "morning" cexRegsA [] wNames).unseated,
            r ∈ p.2)) := by
  intro h
  have h1 := h "r1"
  revert h1
  decide

/-- C7 (amended): the clash detector emits exactly one clash signal per roll
common to an unordered pair of distinct courses of the slot (the signal list
has no duplicates, and a clash signal for (r, c1, c2) appears iff c1 sorts
strictly before c2 and some registration row enrolls r in each); and on a
slot that passes the capacity pre-check (with distinct room keys) a clashing
roll is indeed seated exactly once in each of the two courses. The original
claim's unconditional "subsequently seated" part fails on slots that fail
the pre-check. -/
theorem clash_reporting_and_nonblocking (d s : String) (slot_df : List Reg)
    (rooms : List RoomInfo) (nm : String → String)
    (hnd : (rooms.map roomKey).Nodup)
    (hcap : total_students_of (courseToRolls slot_df) ≤ total_capacity_of rooms) :
    (∀ r c1 c2, Signal.clash r c1 c2 ∈ check_clashes_for_slot slot_df ↔
      (strLt c1 c2 = true ∧ (∃ row ∈ slot_df, row.course = c1 ∧ row.roll = r) ∧
        ∃ row ∈ slot_df, row.course = c2 ∧ row.roll = r)) ∧
    (check_clashes_for_slot slot_df).Nodup ∧
    (∀ r c1 c2, Signal.clash r c1 c2 ∈ check_clashes_for_slot slot_df →
      ∀ c, (c = c1 ∨ c = c2) →
        ((allocate_for_slot d s slot_df rooms nm).allocations.filter
          fun rec => decide (rec.course = c ∧ rec.roll = r)).length = 1) := by
  have hsucc := allocate_for_slot_success d s slot_df rooms nm hnd hcap
  refine ⟨mem_check_clashes slot_df, check_clashes_nodup slot_df, ?_⟩
  intro r c1 c2 hsig c hc
  have hmem := (mem_check_clashes slot_df r c1 c2).mp hsig
  have henr : ∃ row ∈ slot_df, row.course = c ∧ row.roll = r := by
    rcases hc with hc | hc
    · rw [hc]; exact hmem.2.1
    · rw [hc]; exact hmem.2.2
  have hrin : r ∈ rollsOfCourse slot_df c := mem_rollsOfCourse.mpr henr
  have hz : rollsOfCourse slot_df c ≠ [] := by
    intro h
    rw [h] at hrin
    exact List.not_mem_nil _ hrin
  have hpm : (c, dedupFS (rollsOfCourse slot_df c)) ∈ courseToRolls slot_df := by
    apply mem_of_alookup_some
    rw [courseToRolls_lookup, if_neg hz]
  have hfil : ((allocate_for_slot d s slot_df rooms nm).allocations.filter
        fun rec => decide (rec.course = c)).map AllocRec.roll
      = dedupFS (rollsOfCourse slot_df c) :=
    hsucc.2.2 (c, dedupFS (rollsOfCourse slot_df c)) hpm
  rw [filter_course_roll]
  apply length_filter_eq_one_of_nodup_map_mem AllocRec.roll r
  · rw [hfil]
    exact dedupFS_nodup _
  · rw [hfil]
    exact mem_dedupFS.mpr hrin

/-- Witness for C7: roll r1 is enrolled in both courses A and B of a slot
whose pre-check passes; the clash is reported and r1 is seated once per
course. -/
theorem clash_reporting_witness :
    ((wRooms.map roomKey).Nodup ∧
      total_students_of (courseToRolls cexRegsB) ≤ total_capacity_of wRooms) ∧
    ((∀ r c1 c2, Signal.clash r c1 c2 ∈ check_clashes_for_slot cexRegsB ↔
        (strLt c1 c2 = true ∧ (∃ row ∈ cexRegsB, row.course = c1 ∧ row.roll = r) ∧
          ∃ row ∈ cexRegsB, row.course = c2 ∧ row.roll = r)) ∧
      (check_clashes_for_slot cexRegsB).Nodup ∧
      (∀ r c1 c2, Signal.clash r c1 c2 ∈ check_clashes_for_slot cexRegsB →
        ∀ c, (c = c1 ∨ c = c2) →
          ((allocate_for_slot "2024-01-01" "morning" cexRegsB wRooms wNames).allocations.filter
            fun rec => decide (rec.course = c ∧ rec.roll = r)).length = 1)) :=
  ⟨⟨by decide, by decide⟩,
    clash_reporting_and_nonblocking "2024-01-01" "morning" cexRegsB wRooms wNames
      (by decide) (by decide)⟩

/-- Counterexample to C7 as stated: in a slot with no rooms, roll r1's clash
between courses A and B is reported, yet r1 is never seated in course A
because the capacity pre-check aborts the slot. -/
theorem clash_nonblocking_counterexample :
    Signal.clash "r1" "A" "B" ∈ check_clashes_for_slot cexRegsB ∧
    ((allocate_for_slot "2024-01-01" "morning" cexRegsB [] wNames).allocations.filter
        fun rec => decide (rec.course = "A" ∧ rec.roll = "r1")).length = 0 := by
  exact ⟨by decide, by decide⟩

/-- C2: a slot whose deduplicated student total exceeds the capacity total
yields zero allocation records for that slot and exactly one capacity-error
signal naming the slot and both counts; every slot of the run (the failed one
included) still gets exactly its own allocator output, so other slots are
unaffected. -/
theorem capacity_error_isolates_slot (regs : List Reg) (rooms : List RoomInfo)
    (nm : String → String) (k : Key)
    (hnd : (rooms.map roomKey).Nodup)
    (hk : k ∈ slotKeys regs)
    (hfail : total_capacity_of rooms < total_students_of (courseToRolls (rowsFor regs k))) :
    ((process_slots regs rooms nm).all_allocations.filter
        fun rec => decide ((rec.date, rec.slot) = k)) = [] ∧
    ((process_slots regs rooms nm).signals.filter
        fun sg => decide (sg = Signal.capacityError k.1 k.2
          (total_students_of (courseToRolls (rowsFor regs k))) (total_capacity_of rooms)))
      = [Signal.capacityError k.1 k.2
          (total_students_of (courseToRolls (rowsFor regs k))) (total_capacity_of rooms)] ∧
    (∀ k' ∈ slotKeys regs,
      ((process_slots regs rooms nm).all_allocations.filter
          fun rec => decide ((rec.date, rec.slot) = k'))
        = (allocate_for_slot k'.1 k'.2 (rowsFor regs k') rooms nm).allocations ∧
      alookup k' (process_slots regs rooms nm).per_slot_room_caps
        = some (allocate_for_slot k'.1 k'.2 (rowsFor regs k') rooms nm).room_caps) := by
  have hperslot : ∀ k' ∈ slotKeys regs,
      ((process_slots regs rooms nm).all_allocations.filter
          fun rec => decide ((rec.date, rec.slot) = k'))
        = (allocate_for_slot k'.1 k'.2 (rowsFor regs k') rooms nm).allocations := by
    intro k' hk'
    rw [process_slots_allocations, filter_flatMap]
    apply flatMap_eq_single _ (slotKeys_nodup regs) hk'
    · apply List.filter_eq_self.mpr
      intro rec hrec
      have hf := allocate_fields k'.1 k'.2 (rowsFor regs k') rooms nm rec hrec
      exact decide_eq_true (Prod.ext hf.1 hf.2)
    · intro k'' hk'' hne
      apply List.filter_eq_nil_iff.mpr
      intro rec hrec hdec
      rw [decide_eq_true_eq] at hdec
      have hf := allocate_fields k''.1 k''.2 (rowsFor regs k'') rooms nm rec hrec
      apply hne
      have h1 : k''.1 = k'.1 := by rw [← hf.1]; exact congrArg Prod.fst hdec
      have h2 : k''.2 = k'.2 := by rw [← hf.2]; exact congrArg Prod.snd hdec
      exact Prod.ext h1 h2
  refine ⟨?_, ?_, ?_⟩
  · rw [hperslot k hk, allocate_for_slot_fail hfail]
  · rw [process_slots_signals, filter_flatMap]
    apply flatMap_eq_single _ (slotKeys_nodup regs) hk
    · rw [List.filter_append, clashes_filter_capErr, List.nil_append,
        allocate_for_slot_fail hfail]
      show ([Signal.capacityError k.1 k.2
          (total_students_of (courseToRolls (rowsFor regs k)))
          (total_capacity_of rooms)].filter
        fun sg => decide (sg = Signal.capacityError k.1 k.2
          (total_students_of (courseToRolls (rowsFor regs k)))
          (total_capacity_of rooms))) = _
      simp
    · intro k'' _ hne
      rw [List.filter_append, clashes_filter_capErr, List.nil_append]
      by_cases hf2 : total_capacity_of rooms
          < total_students_of (courseToRolls (rowsFor regs k''))
      · rw [allocate_for_slot_fail hf2]
        show ([Signal.capacityError k''.1 k''.2
            (total_students_of (courseToRolls (rowsFor regs k'')))
            (total_capacity_of rooms)].filter
          fun sg => decide (sg = Signal.capacityError k.1 k.2
            (total_students_of (courseToRolls (rowsFor regs k)))
            (total_capacity_of rooms))) = _
        have hne2 : ¬ (Signal.capacityError k''.1 k''.2
            (total_students_of (courseToRolls (rowsFor regs k'')))
            (total_capacity_of rooms)
          = Signal.capacityError k.1 k.2
            (total_students_of (courseToRolls (rowsFor regs k)))
            (total_capacity_of rooms)) := by
          intro e
          injection e with e1 e2 _ _
          exact hne (Prod.ext e1 e2)
        rw [List.filter_cons, if_neg (by rw [decide_eq_true_eq]; exact hne2)]
        rfl
      · have hcap2 : total_students_of (courseToRolls (rowsFor regs k''))
            ≤ total_capacity_of rooms := by omega
        rw [(allocate_for_slot_success k''.1 k''.2 (rowsFor regs k'') rooms nm hnd hcap2).2.1]
        rfl
  · intro k' hk'
    refine ⟨hperslot k' hk', ?_⟩
    rw [process_slots_caps]
    have hknd : (((slotKeys regs).map fun k =>
        (k, (allocate_for_slot k.1 k.2 (rowsFor regs k) rooms nm).room_caps)).map
          Prod.fst).Nodup := by
      have he : ((slotKeys regs).map fun k =>
          (k, (allocate_for_slot k.1 k.2 (rowsFor regs k) rooms nm).room_caps)).map
            Prod.fst = slotKeys regs := by
        rw [List.map_map]
        exact List.map_id _
      rw [he]
      exact slotKeys_nodup regs
    exact alookup_eq_of_mem hknd (List.mem_map.mpr ⟨k', hk', rfl⟩)

/-- Witness for C2: a two-slot run where the morning slot (two students, one
seat) fails the pre-check while the evening slot (one student) is seated. -/
theorem capacity_error_isolates_slot_witness :
    ((wRoomsSmall.map roomKey).Nodup ∧
      ("2024-01-01", "morning") ∈ slotKeys wRegsTwoSlots ∧
      total_capacity_of wRoomsSmall < total_students_of
        (courseToRolls (rowsFor wRegsTwoSlots ("2024-01-01", "morning")))) ∧
    (((process_slots wRegsTwoSlots wRoomsSmall wNames).all_allocations.filter
        fun rec => decide ((rec.date, rec.slot) = ("2024-01-01", "morning"))) = [] ∧
    ((process_slots wRegsTwoSlots wRoomsSmall wNames).signals.filter
        fun sg => decide (sg = Signal.capacityError ("2024-01-01", "morning").1
          ("2024-01-01", "morning").2
          (total_students_of (courseToRolls (rowsFor wRegsTwoSlots
            ("2024-01-01", "morning"))))
          (total_capacity_of wRoomsSmall)))
      = [Signal.capacityError ("2024-01-01", "morning").1 ("2024-01-01", "morning").2
          (total_students_of (courseToRolls (rowsFor wRegsTwoSlots
            ("2024-01-01", "morning"))))
          (total_capacity_of wRoomsSmall)] ∧
    (∀ k' ∈ slotKeys wRegsTwoSlots,
      ((process_slots wRegsTwoSlots wRoomsSmall wNames).all_allocations.filter
          fun rec => decide ((rec.date, rec.slot) = k'))
        = (allocate_for_slot k'.1 k'.2 (rowsFor wRegsTwoSlots k') wRoomsSmall
            wNames).allocations ∧
      alookup k' (process_slots wRegsTwoSlots wRoomsSmall wNames).per_slot_room_caps
        = some (allocate_for_slot k'.1 k'.2 (rowsFor wRegsTwoSlots k') wRoomsSmall
            wNames).room_caps)) :=
  ⟨⟨by decide, by decide, by decide⟩,
    capacity_error_isolates_slot wRegsTwoSlots wRoomsSmall wNames ("2024-01-01", "morning")
      (by decide) (by decide) (by decide)⟩

/-- C10: a slot that fails the capacity pre-check returns the freshly
initialized capacity dict untouched; the run stores exactly that dict for the
slot, and every usage row of the report that belongs to the failed slot shows
used = 0 and seats left equal to the room's full per-course capacity. -/
theorem failed_slot_state_unchanged (regs : List Reg) (rooms : List RoomInfo)
    (nm : String → String) (k : Key)
    (hk : k ∈ slotKeys regs)
    (hfail : total_capacity_of rooms < total_students_of (courseToRolls (rowsFor regs k))) :
    (allocate_for_slot k.1 k.2 (rowsFor regs k) rooms nm).room_caps = initCaps rooms ∧
    alookup k (process_slots regs rooms nm).per_slot_room_caps = some (initCaps rooms) ∧
    ∀ row ∈ seats_rows (process_slots regs rooms nm).per_slot_room_caps rooms,
      (row.date, row.slot) = k → row.used = 0 ∧ row.left = row.base := by
  have hc : (allocate_for_slot k.1 k.2 (rowsFor regs k) rooms nm).room_caps
      = initCaps rooms := by
    rw [allocate_for_slot_fail hfail]
  refine ⟨hc, ?_, ?_⟩
  · rw [per_slot_lookup regs rooms nm hk, hc]
  · intro row hrow hkey
    rcases List.mem_flatMap.mp hrow with ⟨p, hp, hq⟩
    rw [process_slots_caps] at hp
    rcases List.mem_map.mp hp with ⟨k', hk', rfl⟩
    rcases List.mem_map.mp hq with ⟨q, hqm, he⟩
    have hk'k : k' = k := by
      rw [← he] at hkey
      exact hkey
    subst hk'k
    rw [allocate_for_slot_fail hfail] at hqm
    have hqm2 : q ∈ initCaps rooms := hqm
    have hbase : (alookup q.1 (room_base_cap rooms)).getD 0 = q.2 := by
      rw [room_base_cap, alookup_eq_of_mem (initCaps_keys_nodup rooms) hqm2]
      rfl
    refine ⟨?_, ?_⟩
    · rw [← he]
      show ((alookup q.1 (room_base_cap rooms)).getD 0 : Int) - (q.2 : Int) = 0
      rw [hbase]
      omega
    · rw [← he]
      show (q.2 : Nat) = (alookup q.1 (room_base_cap rooms)).getD 0
      exact hbase.symm

/-- Witness for C10 on the two-slot run whose morning slot fails. -/
theorem failed_slot_state_unchanged_witness :
    (("2024-01-01", "morning") ∈ slotKeys wRegsTwoSlots ∧
      total_capacity_of wRoomsSmall < total_students_of
        (courseToRolls (rowsFor wRegsTwoSlots ("2024-01-01", "morning")))) ∧
    ((allocate_for_slot ("2024-01-01", "morning").1 ("2024-01-01", "morning").2
        (rowsFor wRegsTwoSlots ("2024-01-01", "morning")) wRoomsSmall wNames).room_caps
      = initCaps wRoomsSmall ∧
    alookup ("2024-01-01", "morning")
        (process_slots wRegsTwoSlots wRoomsSmall wNames).per_slot_room_caps
      = some (initCaps wRoomsSmall) ∧
    ∀ row ∈ seats_rows
        (process_slots wRegsTwoSlots wRoomsSmall wNames).per_slot_room_caps wRoomsSmall,
      (row.date, row.slot) = ("2024-01-01", "morning") →
        row.used = 0 ∧ row.left = row.base) :=
  ⟨⟨by decide, by decide⟩,
    failed_slot_state_unchanged wRegsTwoSlots wRoomsSmall wNames ("2024-01-01", "morning")
      (by decide) (by decide)⟩

/-- C8: the registration builder emits exactly the registrations the spec
describes (one tuple per course token of each processable session cell and
enrolled roll; NaN, empty and NO-EXAM cells skipped silently), courses with
no enrolled roll contribute no tuple, and it fails with the configuration
error exactly when zero registrations were produced. -/
theorem registration_builder_contract (tt : List TTRow) (cr : List CRRow) :
    (tt.flatMap (rowRegs cr) = specRegistrations tt cr) ∧
    (∀ course, (cr.filter fun q => q.course_code = course) = [] →
      ∀ reg ∈ tt.flatMap (rowRegs cr), reg.course ≠ course) ∧
    (build_registrations tt cr
      = if specRegistrations tt cr = []
        then Except.error
          "No registrations could be built from timetable and course-roll mapping."
        else Except.ok (specRegistrations tt cr)) := by
  refine ⟨build_regs_eq_spec tt cr, ?_, ?_⟩
  · intro course hc reg hreg he
    rw [build_regs_eq_spec] at hreg
    rcases List.mem_flatMap.mp hreg with ⟨row, _, h1⟩
    rcases List.mem_flatMap.mp h1 with ⟨p, _, h2⟩
    by_cases hpp : specProcessable p.2 = true
    · rw [if_pos hpp] at h2
      rcases List.mem_flatMap.mp h2 with ⟨course', _, h3⟩
      rcases List.mem_map.mp h3 with ⟨q, hq, he2⟩
      have hcc : reg.course = course' := by rw [← he2]
      rw [hcc.symm.trans he, hc] at hq
      exact List.not_mem_nil q hq
    · rw [if_neg hpp] at h2
      exact List.not_mem_nil reg h2
  · show (if tt.flatMap (rowRegs cr) = [] then
        Except.error
          "No registrations could be built from timetable and course-roll mapping."
      else Except.ok (tt.flatMap (rowRegs cr))) = _
    rw [build_regs_eq_spec]

/-- C9: the engine is deterministic: two runs on identical inputs (same
registrations, rooms, buffer, mode, and pointwise-equal roll-name lookups)
produce identical results, roster and usage rows included. -/
theorem engine_deterministic (class_df : List ClassRoom) (buffer : Int) (mode : String)
    (regs : List Reg) (nm nm' : String → String) (hnm : ∀ r, nm r = nm' r) :
    run_pipeline class_df buffer mode regs nm
      = run_pipeline class_df buffer mode regs nm' := by
  have h : nm = nm' := funext hnm
  rw [h]

/-- C1: placing one course with the engine state of any slot (counters keyed
by the slot's rooms): when at least one building's remaining capacity covers
the course, the engine picks a sufficient building of minimal remaining
capacity, fills exactly its rooms in ascending room order with the spec's
greedy take-min-and-decrement rule, and seats the course entirely; when no
building suffices, it spreads the course over all rooms in ascending
(building, room) order with the same greedy rule. -/
theorem course_placement_strategy (d s : String) (nm : String → String)
    (rooms : List RoomInfo) (course : String) (rolls : List String)
    (caps : List (Key × Nat))
    (hnd : (rooms.map roomKey).Nodup) (hk : caps.map Prod.fst = rooms.map roomKey) :
    ((∃ b ∈ specBuildings rooms, rolls.length ≤ specBuildingCap caps rooms b) →
      ∃ chosen ∈ specBuildings rooms,
        rolls.length ≤ specBuildingCap caps rooms chosen ∧
        (∀ b ∈ specBuildings rooms, rolls.length ≤ specBuildingCap caps rooms b →
          specBuildingCap caps rooms chosen ≤ specBuildingCap caps rooms b) ∧
        allocCourse d s nm (building_rooms rooms) course rolls caps
          = ⟨flatRecs d s course nm (greedyAssign caps (roomsAsc rooms chosen) rolls).1,
              (greedyAssign caps (roomsAsc rooms chosen) rolls).2.2,
              (greedyAssign caps (roomsAsc rooms chosen) rolls).2.1⟩ ∧
        (allocCourse d s nm (building_rooms rooms) course rolls caps).remaining = []) ∧
    ((∀ b ∈ specBuildings rooms, specBuildingCap caps rooms b < rolls.length) →
      allocCourse d s nm (building_rooms rooms) course rolls caps
        = ⟨flatRecs d s course nm (greedyAssign caps (allRoomsAsc rooms) rolls).1,
            (greedyAssign caps (allRoomsAsc rooms) rolls).2.2,
            (greedyAssign caps (allRoomsAsc rooms) rolls).2.1⟩) := by
  constructor
  · rintro ⟨bw, hbw, hbwcap⟩
    have hne : can_hold_of (building_rooms rooms) caps rolls.length ≠ [] := by
      rw [can_hold_eq_spec]
      intro hfil
      rw [List.filter_eq_nil_iff] at hfil
      exact hfil bw hbw (decide_eq_true hbwcap)
    rcases hch : can_hold_of (building_rooms rooms) caps rolls.length with _ | ⟨b0, bs⟩
    · exact absurd hch hne
    have hcm := chosen_mem_min (building_rooms rooms) caps rolls.length b0 bs hch
    set chB := (isortLe
      (fun a b => decide
        ((alookup a (building_cap_of (building_rooms rooms) caps)).getD 0
          ≤ (alookup b (building_cap_of (building_rooms rooms) caps)).getD 0))
      (b0 :: bs)).headD b0 with hchB
    have hchmem := hcm.1
    rw [can_hold_eq_spec] at hchmem
    have hspec := List.mem_filter.mp hchmem
    have hchspec : chB ∈ specBuildings rooms := hspec.1
    have hchcap : rolls.length ≤ specBuildingCap caps rooms chB := of_decide_eq_true hspec.2
    have hmin : ∀ b ∈ specBuildings rooms, rolls.length ≤ specBuildingCap caps rooms b →
        specBuildingCap caps rooms chB ≤ specBuildingCap caps rooms b := by
      intro b hb hbcap
      have hbch : b ∈ can_hold_of (building_rooms rooms) caps rolls.length := by
        rw [can_hold_eq_spec]
        exact List.mem_filter.mpr ⟨hb, decide_eq_true hbcap⟩
      have hle := hcm.2 b hbch
      rw [building_cap_lookup rooms caps hchspec, building_cap_lookup rooms caps hb] at hle
      simpa using hle
    have hkeys : (alookup chB (building_rooms rooms)).getD [] = roomsAsc rooms chB := by
      rw [building_rooms_lookup_spec rooms hchspec]
      rfl
    have heq : allocCourse d s nm (building_rooms rooms) course rolls caps
        = ⟨flatRecs d s course nm (greedyAssign caps (roomsAsc rooms chB) rolls).1,
            (greedyAssign caps (roomsAsc rooms chB) rolls).2.2,
            (greedyAssign caps (roomsAsc rooms chB) rolls).2.1⟩ := by
      rw [allocCourse_eq_single b0 bs hch, ← hchB, hkeys, fillRooms_greedy]
    have hrem : (allocCourse d s nm (building_rooms rooms) course rolls caps).remaining
        = [] := by
      rw [heq]
      show (greedyAssign caps (roomsAsc rooms chB) rolls).2.1 = []
      have htd := fillRooms_take_drop d s course nm (roomsAsc rooms chB) rolls caps
        (roomsAsc_nodup rooms chB hnd)
      rw [fillRooms_greedy] at htd
      have hdrop := htd.2
      have hsum : ((roomsAsc rooms chB).map (capOf caps)).sum
          = specBuildingCap caps rooms chB :=
        ((isortLe_perm roomLe _).map (capOf caps)).sum_eq
      have hminlen : min rolls.length (((roomsAsc rooms chB).map (capOf caps)).sum)
          = rolls.length := by
        rw [hsum]
        omega
      rw [hminlen] at hdrop
      have hdrop2 : (greedyAssign caps (roomsAsc rooms chB) rolls).2.1
          = List.drop rolls.length rolls := hdrop
      rw [hdrop2]
      exact List.drop_length rolls
    exact ⟨chB, hchspec, hchcap, hmin, heq, hrem⟩
  · intro hno
    have hch : can_hold_of (building_rooms rooms) caps rolls.length = [] := by
      rw [can_hold_eq_spec, List.filter_eq_nil_iff]
      intro b hb hd
      rw [decide_eq_true_eq] at hd
      have := hno b hb
      omega
    rw [allocCourse_eq_spread hch, hk, fillRooms_greedy]
    rfl

/-- Witness for C1 on a concrete course: eight students, building B1 holds
10 and B2 holds 20, so B1 is the minimal sufficient building. -/
theorem course_placement_strategy_witness :
    ((wRooms.map roomKey).Nodup ∧ (initCaps wRooms).map Prod.fst = wRooms.map roomKey) ∧
    (((∃ b ∈ specBuildings wRooms,
        wRolls.length ≤ specBuildingCap (initCaps wRooms) wRooms b) →
      ∃ chosen ∈ specBuildings wRooms,
        wRolls.length ≤ specBuildingCap (initCaps wRooms) wRooms chosen ∧
        (∀ b ∈ specBuildings wRooms,
          wRolls.length ≤ specBuildingCap (initCaps wRooms) wRooms b →
          specBuildingCap (initCaps wRooms) wRooms chosen
            ≤ specBuildingCap (initCaps wRooms) wRooms b) ∧
        allocCourse "2024-01-01" "morning" wNames (building_rooms wRooms) "A" wRolls
            (initCaps wRooms)
          = ⟨flatRecs "2024-01-01" "morning" "A" wNames
                (greedyAssign (initCaps wRooms) (roomsAsc wRooms chosen) wRolls).1,
              (greedyAssign (initCaps wRooms) (roomsAsc wRooms chosen) wRolls).2.2,
              (greedyAssign (initCaps wRooms) (roomsAsc wRooms chosen) wRolls).2.1⟩ ∧
        (allocCourse "2024-01-01" "morning" wNames (building_rooms wRooms) "A" wRolls
            (initCaps wRooms)).remaining = []) ∧
    ((∀ b ∈ specBuildings wRooms,
        specBuildingCap (initCaps wRooms) wRooms b < wRolls.length) →
      allocCourse "2024-01-01" "morning" wNames (building_rooms wRooms) "A" wRolls
          (initCaps wRooms)
        = ⟨flatRecs "2024-01-01" "morning" "A" wNames
              (greedyAssign (initCaps wRooms) (allRoomsAsc wRooms) wRolls).1,
            (greedyAssign (initCaps wRooms) (allRoomsAsc wRooms) wRolls).2.2,
            (greedyAssign (initCaps wRooms) (allRoomsAsc wRooms) wRolls).2.1⟩)) :=
  ⟨⟨by decide, by decide⟩,
    course_placement_strategy "2024-01-01" "morning" wNames wRooms "A" wRolls
      (initCaps wRooms) (by decide) (by decide)⟩

/-- Witness for C9 at a concrete run. -/
theorem engine_deterministic_witness :
    (∀ r, wNames r = wNames r) ∧
    run_pipeline [⟨"B1", "101", 10⟩] 3 "sparse" wRegs wNames
      = run_pipeline [⟨"B1", "101", 10⟩] 3 "sparse" wRegs wNames :=
  ⟨fun _ => rfl,
    engine_deterministic [⟨"B1", "101", 10⟩] 3 "sparse" wRegs wNames wNames fun _ => rfl⟩

end Seating
